import Mathlib

/-!
Verification of the sum-check protocol implementation (o1js/TypeScript repository).

The field `F` of the source (`o1js.Field`, a prime field) is modelled as `ZMod p` for a
parameter `p`; theorems assume `p` prime, matching the spec's "external prime-field
arithmetic primitive".  Thrown JS errors are modelled by `Except Err`; methods that
mutate `this` before possibly throwing return the post-call state alongside the result.
-/

set_option maxHeartbeats 1000000

/-- Error kinds raised by the source (spec section 7), plus `invalidAscii` for the
`asciiToNumber` range check and `typeError` for a JS undefined-dereference crash. -/
inductive Err where
  | emptyInput
  | dimensionMismatch
  | divisionByZero
  | invalidArity
  | roundOverflow
  | unexpectedChallenge
  | missingChallenge
  | tooManyRounds
  | degreeError
  | sumMismatch
  | oracleMismatch
  | incompleteRounds
  | invalidAscii
  | typeError
  deriving DecidableEq, Repr

instance {e a : Type} [DecidableEq e] [DecidableEq a] : DecidableEq (Except e a) := fun x y =>
  match x, y with
  | .error u, .error w => decidable_of_iff (u = w) (by simp)
  | .ok u, .ok w => decidable_of_iff (u = w) (by simp)
  | .error _, .ok _ => isFalse (by simp)
  | .ok _, .error _ => isFalse (by simp)

/-- Fuel-driven ceiling base-2 logarithm: `log2Fuel fuel n` computes `⌈log₂ n⌉` for `n ≥ 1`
whenever `n ≤ fuel`, via the recurrence `⌈log₂ n⌉ = 1 + ⌈log₂ ⌈n/2⌉⌉`.  (Structural recursion
on fuel keeps it kernel-reducible, unlike `Nat.clog`.) -/
def log2Fuel : ℕ → ℕ → ℕ
  | 0, _ => 0
  | fuel + 1, n => if n ≤ 1 then 0 else log2Fuel fuel ((n + 1) / 2) + 1

/-- `Math.ceil(Math.log2(n))` of the source for `n ≥ 1`: the hypercube dimension `d` chosen
for a table of `n` values. -/
def clog2 (n : ℕ) : ℕ := log2Fuel n n

/-- `toBinary` from `util.ts`: the binary digits of `num` in `bitLength` bits,
most-significant bit first (the source builds LSB-first and reverses). -/
def toBinary (num bitLength : ℕ) : List ℕ :=
  (((List.range bitLength).map fun index => num / 2 ^ index % 2)).reverse

/-- `generateBinaryVertices` from `util.ts`: all `2^d` vertices of the `d`-dimensional
hypercube in index order. -/
def generateBinaryVertices (d : ℕ) : List (List ℕ) :=
  (List.range (2 ^ d)).map fun i => toBinary i d

/-- `asciiToNumber` from `util.ts`: a character code, rejected unless it is in `0..127`. -/
def asciiToNumber (c : ℕ) : Except Err ℕ :=
  if 127 < c then .error .invalidAscii else .ok c

/-- Fuel-driven binary length: `bitLenFuel fuel n` is the number of binary digits of `n`
(`0` for `n = 0`) whenever `n ≤ fuel`. -/
def bitLenFuel : ℕ → ℕ → ℕ
  | 0, _ => 0
  | fuel + 1, n => if n = 0 then 0 else bitLenFuel fuel (n / 2) + 1

/-- Number of binary digits of `n` (`0` for `n = 0`). -/
def bitLen (n : ℕ) : ℕ := bitLenFuel n n

/-- The digit list of JavaScript `i.toString(2)`: minimal-length binary, MSB first
(one digit `0` for `i = 0`). -/
def jsBinaryString (i : ℕ) : List ℕ := toBinary i (max 1 (bitLen i))

/-- JavaScript `padStart(dim)` on a digit list.  The source pads with the default pad
character, a space, but `Field(" ")` parses as `0` in o1js (`BigInt(" ") = 0`), so the
padding contributes zero entries. -/
def padZeros (l : List ℕ) (dim : ℕ) : List ℕ := List.replicate (dim - l.length) 0 ++ l

/-- The `getBinaryVectors` loop body shared by the two Prover classes:
`i.toString(2).padStart(dimension).split("").map(Field)` for `i < 2^dimension`. -/
def jsBinaryVectors (p : ℕ) (dim : ℕ) : List (List (ZMod p)) :=
  (List.range (2 ^ dim)).map fun i => (padZeros (jsBinaryString i) dim).map (Nat.cast)

/-! ## Multilinear low-degree extension (`src/lib/sum-check/multilinear-lagrange.ts`) -/

/-- `getMultilinearLagrangeBasis` from `multilinear-lagrange.ts`: the multilinear Lagrange
basis value `Π_j (w_j·x_j + (1−w_j)(1−x_j))`, as a product over the paired entries.  (The
source accumulates the product left-to-right; multiplication is associative and commutative,
so the right-nested product below has the same value.) -/
def getMultilinearLagrangeBasis (p : ℕ) : List (ZMod p) → List (ZMod p) → ZMod p
  | w :: ws, xi :: xs =>
      (w * xi + (1 - w) * (1 - xi)) * getMultilinearLagrangeBasis p ws xs
  | _, _ => 1

/-- The accumulated sum of the `getMultilinearLDE` loop: for each `i < 2^d` the term
`values[i] · L_{vertex i}(r)`, with indices at or beyond `values.length` contributing `0`. -/
def mleSum (p : ℕ) (values : List (ZMod p)) (d : ℕ) (r : List (ZMod p)) : ZMod p :=
  ∑ i ∈ Finset.range (2 ^ d),
    if i < values.length then
      values.getD i 0 * getMultilinearLagrangeBasis p ((toBinary i d).map Nat.cast) r
    else 0

/-- `getMultilinearLDE` from `multilinear-lagrange.ts`: rejects an empty table, rejects an
evaluation vector whose length differs from `d = ⌈log₂ length⌉`, and otherwise returns the
multilinear extension value. -/
def getMultilinearLDE (p : ℕ) (values : List (ZMod p)) (r : List (ZMod p)) :
    Except Err (ZMod p) :=
  if values.length = 0 then .error .emptyInput
  else if r.length ≠ clog2 values.length then .error .dimensionMismatch
  else .ok (mleSum p values (clog2 values.length) r)

/-! ## Univariate low-degree extension (`src/lib/sum-check/univariate-lagrange.ts`) -/

/-- o1js `Field.div`: multiplication by the modular inverse, an error when the divisor is
the additive identity. -/
def fdiv (p : ℕ) (a b : ZMod p) : Except Err (ZMod p) :=
  if b = 0 then .error .divisionByZero else .ok (a * b⁻¹)

/-- `getUnivariateLagrangeBasis` from `univariate-lagrange.ts`: `Π_{j≠index} (x−j)/(index−j)`
over the nodes `0..n−1`, where each division goes through `fdiv`. -/
def getUnivariateLagrangeBasis (p : ℕ) (index : ℕ) (n : ℕ) (x : ZMod p) :
    Except Err (ZMod p) :=
  (List.range n).foldlM
    (fun acc j =>
      if j = index then .ok acc
      else (fdiv p (x - (j : ZMod p)) ((index : ZMod p) - (j : ZMod p))).map
        fun term => acc * term)
    1

/-- `getUnivariateLDE` from `univariate-lagrange.ts`: rejects an empty table; returns
`values[r]` directly when `r` is (the embedding of) one of the integer nodes `0..n−1`
(`r.lessThan(values.length)` compares canonical representatives); otherwise accumulates
`Σ_i values[i] · L_i(r)`. -/
def getUnivariateLDE (p : ℕ) (values : List (ZMod p)) (r : ZMod p) :
    Except Err (ZMod p) :=
  if values.length = 0 then .error .emptyInput
  else if r.val < values.length then .ok (values.getD r.val 0)
  else (List.range values.length).foldlM
    (fun acc i =>
      (getUnivariateLagrangeBasis p i values.length r).map
        fun basis => acc + values.getD i 0 * basis)
    0

/-! ## Message extensions (`src/lib/message-extensions/`)

A JS string is modelled as its list of UTF-16 code units (`List ℕ`); `message[i]`
followed by `charCodeAt(0)` is the `i`-th entry. -/

/-- `getMultilinearLagrangeBasisAt` from `multilinear-lagrange.ts` (message variant):
checks that `w` and `x` both have the dimension of the interpolating set's first vertex,
then returns the same product as `getMultilinearLagrangeBasis`. -/
def getMultilinearLagrangeBasisAt (p : ℕ) (w : List ℕ) (interpolatingSet : List (List ℕ))
    (x : List (ZMod p)) : Except Err (ZMod p) :=
  if w.length ≠ (interpolatingSet.getD 0 []).length ∨
      x.length ≠ (interpolatingSet.getD 0 []).length then
    .error .dimensionMismatch
  else .ok (getMultilinearLagrangeBasis p (w.map Nat.cast) x)

/-- `getMultilinearLagrange` from `multilinear-lagrange.ts`: the naive multilinear
extension of an ASCII message.  Per hypercube index `i` it converts the `i`-th character
(zero beyond the message) and multiplies by that vertex's Lagrange basis at `x`, exactly
as the source's loop does. -/
def getMultilinearLagrange (p : ℕ) (message : List ℕ) (x : List (ZMod p)) :
    Except Err (ZMod p) :=
  if message.length = 0 then .error .emptyInput
  else
    let d := clog2 message.length
    let interpolatingSet := generateBinaryVertices d
    (List.range (2 ^ d)).foldlM
      (fun acc i => do
        let coefficient : ZMod p ←
          if i < message.length then
            (asciiToNumber (message.getD i 0)).map Nat.cast
          else .ok 0
        let lagrangeBasisAtInput ←
          getMultilinearLagrangeBasisAt p (toBinary i d) interpolatingSet x
        .ok (acc + coefficient * lagrangeBasisAtInput))
      0

/-- `memoizedLagrangeBasis` from `fast-multilinear-lagrange.ts`: the dynamic-programming
basis table.  The source starts from `[1 − x[0], x[0]]`; when `x` is empty, `x[0]` is JS
`undefined` and `Field(1).sub(undefined)` throws, modelled by `typeError`.  Each further
dimension expands every entry `e` into `e·(1−x_i), e·x_i`. -/
def memoizedLagrangeBasis (p : ℕ) (x : List (ZMod p)) : Except Err (List (ZMod p)) :=
  match x with
  | [] => .error .typeError
  | x0 :: rest =>
      .ok (rest.foldl
        (fun prevRound xi => prevRound.flatMap fun e => [e * (1 - xi), e * xi])
        [1 - x0, x0])

/-- `getMemoizedMultilinearLagrange` from `fast-multilinear-lagrange.ts`: checks the
message and the dimension of `r`, builds the zero-padded coefficient vector `v1` and the
memoized basis table `v2`, and returns their dot product.  (`getRequiredBits` cannot fail
here, its positivity check being subsumed by the emptiness check.) -/
def getMemoizedMultilinearLagrange (p : ℕ) (message : List ℕ) (r : List (ZMod p)) :
    Except Err (ZMod p) :=
  if message.length = 0 then .error .emptyInput
  else
    let d := clog2 message.length
    if r.length ≠ d then .error .dimensionMismatch
    else do
      let v1 ← (List.range (2 ^ d)).mapM
        (fun i =>
          if i < message.length then
            (asciiToNumber (message.getD i 0)).map (Nat.cast : ℕ → ZMod p)
          else .ok 0)
      let v2 ← memoizedLagrangeBasis p r
      .ok ((v1.zip v2).foldl (fun acc e => acc + e.1 * e.2) 0)

/-! ## The Prover (`src/lib/sum-check/sum-check-prover.ts`)

Class state is the record `Prover`; methods take and return it explicitly.
`getRoundJPolynomial` returns the post-call state next to the result because the source
pushes `r_prev` onto `this.r` before its validation checks run. -/

namespace SumCheckProver

/-- The Prover's fields: the claimed variable count `v`, the evaluation table `g`, and the
accumulated challenge vector `r`. -/
structure Prover (p : ℕ) where
  v : ℕ
  g : List (ZMod p)
  r : List (ZMod p)
  deriving DecidableEq, Repr

/-- The Prover constructor: rejects a table longer than `2^v`. -/
def mkProver (p : ℕ) (g : List (ZMod p)) (v : ℕ) : Except Err (Prover p) :=
  if 2 ^ v < g.length then .error .invalidArity else .ok ⟨v, g, []⟩

/-- `getBinaryVectors` of `sum-check-prover.ts`: all binary vectors of the given
dimension, with an explicit empty result for dimension `0`. -/
def getBinaryVectors (p : ℕ) (dimension : ℕ) : List (List (ZMod p)) :=
  if dimension = 0 then [] else jsBinaryVectors p dimension

/-- The summation loops of `getRoundJPolynomial` and `getProposedSum`: a running
field-element accumulator over multilinear-LDE calls, propagating the first error.
(The source interleaves the `sum0` and `sum1` accumulations in one `forEach`; every call
of one round uses an evaluation vector of the same length, so the two orders produce the
same result and the same error.) -/
def sumMLE (p : ℕ) (g : List (ZMod p)) (points : List (List (ZMod p))) :
    Except Err (ZMod p) :=
  points.foldlM (fun acc point => (getMultilinearLDE p g point).map fun e => acc + e) 0

/-- `Prover.getRoundJPolynomial` of `sum-check-prover.ts`.  The optional challenge is
appended to `r` first — before any check — after which the round number `j`, the overflow
check, the round-1/round-j argument checks, and the two partial sums follow the source
line by line.  The state paired with the result is the state the mutated `this` holds when
the method returns or throws. -/
def getRoundJPolynomial (p : ℕ) (st : Prover p) (r_prev : Option (ZMod p)) :
    Except Err (ZMod p × ZMod p) × Prover p :=
  let r' := st.r ++ r_prev.toList
  let st' : Prover p := ⟨st.v, st.g, r'⟩
  let j := r'.length + 1
  if st.v ≤ r'.length then (.error .roundOverflow, st')
  else if j = 1 ∧ r_prev.isSome then (.error .unexpectedChallenge, st')
  else if j ≠ 1 ∧ r_prev = none then (.error .missingChallenge, st')
  else
    let binaryVectors := getBinaryVectors p (st.v - j)
    if binaryVectors.length ≠ 0 then
      ((do
        let sum0 ← sumMLE p st.g (binaryVectors.map fun vector => r' ++ 0 :: vector)
        let sum1 ← sumMLE p st.g (binaryVectors.map fun vector => r' ++ 1 :: vector)
        .ok (sum0, sum1)), st')
    else
      -- in round v there are no binary vectors to sum over
      ((do
        let sum0 ← getMultilinearLDE p st.g (r' ++ [0])
        let sum1 ← getMultilinearLDE p st.g (r' ++ [1])
        .ok (sum0, sum1)), st')

/-- `Prover.getProposedSum` of `sum-check-prover.ts`: the accumulated sum of the
multilinear LDE of `g` over all `v`-dimensional binary vectors. -/
def getProposedSum (p : ℕ) (st : Prover p) : Except Err (ZMod p) :=
  sumMLE p st.g (getBinaryVectors p st.v)

end SumCheckProver

/-! ## The Verifier (`src/lib/sum-check/sum-check-iterative.ts`)

The verifier's random challenge (`getRandomFieldElement`) is the spec's external
challenge source; the fresh element it yields for the round is passed in as `c`. -/

namespace SumCheckIterative

/-- The Verifier's fields: the variable count, the Prover's proposed sum, the stored
round polynomials, and the accumulated challenge vector. -/
structure Verifier (p : ℕ) where
  v : ℕ
  proposedSum : ZMod p
  polynomials : List (List (ZMod p))
  r : List (ZMod p)
  deriving DecidableEq, Repr

/-- `Verifier.verifyRoundJPolynomial` of `sum-check-iterative.ts`: rejects once `v` rounds
have run, rejects a table of more than two points, computes `g_j(0) + g_j(1)`, compares it
with the proposed sum (round 1) or with `g_{j−1}(r_{j−1})` (round `j > 1`, where the source
indexes `polynomials[j−2]` and `r[j−2]`, both in range in every reachable state), then
stores the fresh challenge `c` and the polynomial and returns the challenge. -/
def verifyRoundJPolynomial (p : ℕ) (st : Verifier p) (g_j : List (ZMod p)) (c : ZMod p) :
    Except Err (ZMod p × Verifier p) :=
  let j := st.r.length + 1
  if st.v < j then .error .tooManyRounds
  else if 2 < g_j.length then .error .degreeError
  else do
    let a ← getUnivariateLDE p g_j 0
    let b ← getUnivariateLDE p g_j 1
    let sum := a + b
    if j = 1 then
      if sum = st.proposedSum then .ok () else .error .sumMismatch
    else do
      let prevPolynomialAtPrevR ←
        getUnivariateLDE p (st.polynomials.getD (j - 2) []) (st.r.getD (j - 2) 0)
      if sum = prevPolynomialAtPrevR then .ok () else .error .sumMismatch
    .ok (c, ⟨st.v, st.proposedSum, st.polynomials ++ [g_j], st.r ++ [c]⟩)

/-- `Verifier.verifyOracleQueryOfG` of `sum-check-iterative.ts`: requires all `v` rounds
to have run, then compares `g(r)` with `g_v(r_v)` (the source reads `polynomials[len−1]`
and `r[len−1]`). -/
def verifyOracleQueryOfG (p : ℕ) (st : Verifier p) (g : List (ZMod p)) :
    Except Err Unit :=
  if st.r.length ≠ st.v ∨ st.polynomials.length ≠ st.v then .error .incompleteRounds
  else do
    let gOfR ← getMultilinearLDE p g st.r
    let g_vOfR_v ←
      getUnivariateLDE p (st.polynomials.getD (st.polynomials.length - 1) [])
        (st.r.getD (st.r.length - 1) 0)
    if gOfR = g_vOfR_v then .ok () else .error .oracleMismatch

end SumCheckIterative

/-! ## The redundant `src/lib/sum-check/sum-check.ts` Prover/Verifier pair

Same class shapes as above (the records are reused), with this file's control-flow
differences embedded faithfully. -/

/-- JavaScript truthiness of an o1js `Bool` object: an object is truthy whatever boolean
it wraps.  `sum-check.ts` writes `if (!sum.equals(x))` without `.toBoolean()`, so the
negation is applied to the object itself and the branch can never be taken. -/
def jsObjectTruthy (_b : Bool) : Bool := true

namespace SumCheckTs

/-- `getBinaryVectors` of `sum-check.ts`: no dimension-0 guard, so dimension `0` yields
the single vector `["0"]` (length 1) rather than the empty suffix. -/
def getBinaryVectors (p : ℕ) (dimension : ℕ) : List (List (ZMod p)) :=
  jsBinaryVectors p dimension

/-- `Prover.getRoundJPolynomial` of `sum-check.ts`: all argument checks precede the push
of `r_prev` (the push happens only in the `r ≠ []` branch, so a challenge is appended
exactly when one is accepted — `st.r ++ r_prev.toList` — and round 1 never appends).
`v − j` is ℕ-subtraction; when `j = v + 1` the JS value is `−1`, and both produce the
single length-1 vector `["0"]`, matching `2 ** -1 = 0.5` bounding one loop iteration. -/
def getRoundJPolynomial (p : ℕ) (st : SumCheckProver.Prover p)
    (r_prev : Option (ZMod p)) :
    Except Err (ZMod p × ZMod p) × SumCheckProver.Prover p :=
  if st.v ≤ st.r.length then (.error .roundOverflow, st)
  else if st.r.length = 0 ∧ r_prev.isSome then (.error .unexpectedChallenge, st)
  else if st.r.length ≠ 0 ∧ r_prev = none then (.error .missingChallenge, st)
  else
    let r' := st.r ++ r_prev.toList
    let st' : SumCheckProver.Prover p := ⟨st.v, st.g, r'⟩
    let j := r'.length + 1
    let binaryVectors := getBinaryVectors p (st.v - j)
    ((do
      let sum0 ← SumCheckProver.sumMLE p st.g
        (binaryVectors.map fun vector => r' ++ 0 :: vector)
      let sum1 ← SumCheckProver.sumMLE p st.g
        (binaryVectors.map fun vector => r' ++ 1 :: vector)
      .ok (sum0, sum1)), st')

/-- `Verifier.verifyRoundJPolynomial` of `sum-check.ts`: identical to the iterative
verifier except that both sum comparisons negate the o1js `Bool` object itself
(no `.toBoolean()`), so the mismatch branches are never taken. -/
def verifyRoundJPolynomial (p : ℕ) (st : SumCheckIterative.Verifier p)
    (g_j : List (ZMod p)) (c : ZMod p) :
    Except Err (ZMod p × SumCheckIterative.Verifier p) :=
  let j := st.r.length + 1
  if st.v < j then .error .tooManyRounds
  else if 2 < g_j.length then .error .degreeError
  else do
    let a ← getUnivariateLDE p g_j 0
    let b ← getUnivariateLDE p g_j 1
    let sum := a + b
    if j = 1 then
      if !(jsObjectTruthy (decide (sum = st.proposedSum))) then .error .sumMismatch
      else .ok ()
    else do
      let prevPolynomialAtPrevR ←
        getUnivariateLDE p (st.polynomials.getD (j - 2) []) (st.r.getD (j - 2) 0)
      if !(jsObjectTruthy (decide (sum = prevPolynomialAtPrevR))) then
        .error .sumMismatch
      else .ok ()
    .ok (c, ⟨st.v, st.proposedSum, st.polynomials ++ [g_j], st.r ++ [c]⟩)

/-- `Prover.getProposedSum` of `sum-check.ts`: textually identical to the
`sum-check-prover.ts` version but using this file's unguarded `getBinaryVectors`. -/
def getProposedSum (p : ℕ) (st : SumCheckProver.Prover p) : Except Err (ZMod p) :=
  SumCheckProver.sumMLE p st.g (getBinaryVectors p st.v)

end SumCheckTs

/-! ## The full interactive run (`runner` of `sum-check-iterative.ts`)

The driver threads the `sum-check-prover.ts` Prover and the iterative Verifier, passing
each verifier challenge to the next prover round; the list `challenges` supplies the
verifier's random source, one element per round. -/

/-- The round loop: for each challenge, one prover round (fed the previous round's
challenge) followed by one verifier round.  Returns both final states and the pending
challenge. -/
def runRounds (p : ℕ) (pst : SumCheckProver.Prover p)
    (vst : SumCheckIterative.Verifier p) (pending : Option (ZMod p)) :
    List (ZMod p) →
      Except Err (SumCheckProver.Prover p × SumCheckIterative.Verifier p × Option (ZMod p))
  | [] => .ok (pst, vst, pending)
  | c :: rest => do
      let (res, pst') := SumCheckProver.getRoundJPolynomial p pst pending
      let (sum0, sum1) ← res
      let (r_j, vst') ← SumCheckIterative.verifyRoundJPolynomial p vst [sum0, sum1] c
      runRounds p pst' vst' (some r_j) rest

/-- Construction plus proposed sum plus all `v` rounds, returning the two final states. -/
def runProtocolStates (p : ℕ) (g : List (ZMod p)) (v : ℕ) (challenges : List (ZMod p)) :
    Except Err (SumCheckProver.Prover p × SumCheckIterative.Verifier p) := do
  let pst ← SumCheckProver.mkProver p g v
  let sum ← SumCheckProver.getProposedSum p pst
  let vst : SumCheckIterative.Verifier p := ⟨v, sum, [], []⟩
  let (pst', vst', _) ← runRounds p pst vst none challenges
  .ok (pst', vst')

/-- The complete honest run: rounds followed by the oracle query of the prover's `g`. -/
def runProtocol (p : ℕ) (g : List (ZMod p)) (v : ℕ) (challenges : List (ZMod p)) :
    Except Err Unit := do
  let (pst, vst) ← runProtocolStates p g v challenges
  SumCheckIterative.verifyOracleQueryOfG p vst pst.g

/-! ## Derived quantities used to state and prove the protocol properties -/

/-- The coefficient table both message evaluators build: the `i`-th character code as a
field element, zero beyond the message. -/
def msgCoef (p : ℕ) (message : List ℕ) (i : ℕ) : ZMod p :=
  if i < message.length then ((message.getD i 0 : ℕ) : ZMod p) else 0

/-- The common value of both message evaluators on valid input. -/
def msgMLE (p : ℕ) (message : List ℕ) (x : List (ZMod p)) : ZMod p :=
  ∑ i ∈ Finset.range (2 ^ clog2 message.length),
    msgCoef p message i *
      getMultilinearLagrangeBasis p ((toBinary i (clog2 message.length)).map Nat.cast) x


/-- The partial hypercube sum `Σ_{b ∈ {0,1}^{v−|ρ|}} g~(ρ, b)`: the multilinear extension
of `g` summed over all boolean suffixes of the prefix `ρ`.  For `|ρ| = v` this is the
single value `g~(ρ)`; the honest round-`j` polynomial is
`x ↦ boolSuffixSum (ρ ++ [x])` for the challenge prefix `ρ` of length `j − 1`. -/
def boolSuffixSum (p : ℕ) (g : List (ZMod p)) (v : ℕ) (prefixR : List (ZMod p)) : ZMod p :=
  ∑ i ∈ Finset.range (2 ^ (v - prefixR.length)),
    mleSum p g v (prefixR ++ (toBinary i (v - prefixR.length)).map Nat.cast)

/-- The list of honest round polynomials the Verifier has stored after the rounds whose
challenges are `ρ`: entry `t` (round `t + 1`) is the pair of partial sums at the prefix of
the first `t` challenges. -/
def roundPolys (p : ℕ) (g : List (ZMod p)) (v : ℕ) (challenges : List (ZMod p)) :
    List (List (ZMod p)) :=
  (List.range challenges.length).map fun t =>
    [boolSuffixSum p g v (challenges.take t ++ [0]),
     boolSuffixSum p g v (challenges.take t ++ [1])]

/-- The value of the univariate LDE of a one- or two-point table: a constant, or the line
`(1−x)·a + x·b` through `(0, a)` and `(1, b)`. -/
def uniEval2 (p : ℕ) : List (ZMod p) → ZMod p → ZMod p
  | [a], _ => a
  | [a, b], x => (1 - x) * a + x * b
  | _, _ => 0

/-! ## Lemmas: `Except`-valued folds -/

@[simp] theorem except_bind_ok {e a b : Type} (x : a) (f : a → Except e b) :
    (Except.ok x >>= f) = f x := rfl

@[simp] theorem except_bind_error {e a b : Type} (w : e) (f : a → Except e b) :
    ((Except.error w : Except e a) >>= f) = .error w := rfl

@[simp] theorem except_map_ok {e a b : Type} (f : a → b) (x : a) :
    (Except.ok x : Except e a).map f = .ok (f x) := rfl

@[simp] theorem except_map_error {e a b : Type} (f : a → b) (w : e) :
    (Except.error w : Except e a).map f = .error w := rfl

/-- A monadic left fold whose every step succeeds like a pure step computes the pure fold. -/
theorem exceptFoldl_ok {a b : Type} (step : b → a → Except Err b) (g : b → a → b)
    (l : List a) (h : ∀ acc x, x ∈ l → step acc x = .ok (g acc x)) :
    ∀ init, l.foldlM step init = .ok (l.foldl g init) := by
  induction l with
  | nil => intro init; rfl
  | cons x xs ih =>
    intro init
    rw [List.foldlM_cons, h init x (List.mem_cons_self x xs), except_bind_ok]
    exact ih (fun acc y hy => h acc y (List.mem_cons_of_mem x hy)) (g init x)

/-- A monadic left fold whose every step succeeds produces some success value. -/
theorem exceptFoldl_exists_ok {a b : Type} (step : b → a → Except Err b) (l : List a)
    (h : ∀ acc x, x ∈ l → ∃ y, step acc x = .ok y) :
    ∀ init, ∃ y, l.foldlM step init = .ok y := by
  induction l with
  | nil => intro init; exact ⟨init, rfl⟩
  | cons x xs ih =>
    intro init
    obtain ⟨y, hy⟩ := h init x (List.mem_cons_self x xs)
    rw [List.foldlM_cons, hy, except_bind_ok]
    exact ih (fun acc z hz => h acc z (List.mem_cons_of_mem x hz)) y

/-- A monadic map whose every entry succeeds computes the pure map. -/
theorem exceptMapM_ok {a b : Type} (step : a → Except Err b) (g : a → b)
    (l : List a) (h : ∀ x ∈ l, step x = .ok (g x)) :
    l.mapM step = .ok (l.map g) := by
  induction l with
  | nil => rfl
  | cons x xs ih =>
    rw [List.mapM_cons, h x (List.mem_cons_self x xs)]
    rw [ih (fun y hy => h y (List.mem_cons_of_mem x hy))]
    rfl

/-- Left-folded addition over a list is the initial value plus the list sum. -/
theorem foldl_add_eq_sum {M : Type} [AddCommMonoid M] {a : Type} (f : a → M)
    (l : List a) : ∀ init, l.foldl (fun acc x => acc + f x) init = init + (l.map f).sum := by
  induction l with
  | nil => intro init; simp
  | cons x xs ih => intro init; simp [ih, add_assoc]

/-- The sum of `f` mapped over `List.range n` is the `Finset.range n` sum. -/
theorem map_range_sum {M : Type} [AddCommMonoid M] (f : ℕ → M) (n : ℕ) :
    ((List.range n).map f).sum = ∑ i ∈ Finset.range n, f i := by
  induction n with
  | zero => rfl
  | succ n ih => rw [List.range_succ, Finset.sum_range_succ, List.map_append, List.sum_append, ih]; simp

/-! ## Lemmas: binary encodings and the ceiling log -/

theorem toBinary_length (num d : ℕ) : (toBinary num d).length = d := by
  simp [toBinary]

theorem toBinary_succ (num d : ℕ) :
    toBinary num (d + 1) = (num / 2 ^ d % 2) :: toBinary num d := by
  simp [toBinary, List.range_succ]

theorem toBinary_succ_lsb (num : ℕ) : ∀ d,
    toBinary num (d + 1) = toBinary (num / 2) d ++ [num % 2] := by
  intro d
  induction d with
  | zero =>
    show List.reverse (List.map _ (List.range 1)) = _
    rw [List.range_succ]
    simp [toBinary]
  | succ d ih =>
    rw [toBinary_succ num (d + 1), ih, toBinary_succ (num / 2) d, List.cons_append,
      Nat.div_div_eq_div_mul, ← pow_succ']

theorem toBinary_mod : ∀ (d num : ℕ), toBinary num d = toBinary (num % 2 ^ d) d := by
  intro d
  induction d with
  | zero => intro num; rfl
  | succ d ih =>
    intro num
    rw [toBinary_succ, toBinary_succ]
    have h1 : num % 2 ^ (d + 1) / 2 ^ d = num / 2 ^ d % 2 := by
      rw [pow_succ, Nat.mod_mul_right_div_self]
    have h2 : num % 2 ^ (d + 1) % 2 ^ d = num % 2 ^ d :=
      Nat.mod_mod_of_dvd _ (pow_dvd_pow 2 d.le_succ)
    congr 1
    · rw [h1]; omega
    · rw [ih num, ih (num % 2 ^ (d + 1)), h2]

theorem toBinary_of_lt {num d : ℕ} (h : num < 2 ^ d) :
    toBinary num (d + 1) = 0 :: toBinary num d := by
  rw [toBinary_succ, Nat.div_eq_of_lt h]

theorem toBinary_add_pow {num d : ℕ} (h : num < 2 ^ d) :
    toBinary (2 ^ d + num) (d + 1) = 1 :: toBinary num d := by
  rw [toBinary_succ]
  have h1 : (2 ^ d + num) / 2 ^ d = 1 := by
    rw [Nat.add_comm, Nat.add_div_right _ (Nat.pos_pow_of_pos d (by norm_num)),
      Nat.div_eq_of_lt h]
  have h2 : toBinary (2 ^ d + num) d = toBinary num d := by
    rw [toBinary_mod, Nat.add_mod_left, ← toBinary_mod]
  rw [h1, h2]

theorem log2Fuel_le_pow : ∀ fuel n, n ≤ fuel → n ≤ 2 ^ log2Fuel fuel n := by
  intro fuel
  induction fuel with
  | zero => intro n hn; exact le_trans hn (Nat.zero_le _)
  | succ fuel ih =>
    intro n hn
    by_cases h1 : n ≤ 1
    · simp only [log2Fuel, h1, if_true, pow_zero]
    · have h2 : (n + 1) / 2 ≤ fuel := by omega
      have h3 := ih ((n + 1) / 2) h2
      simp only [log2Fuel, h1, if_false]
      calc n ≤ 2 * ((n + 1) / 2) := by omega
        _ ≤ 2 * 2 ^ log2Fuel fuel ((n + 1) / 2) := Nat.mul_le_mul_left 2 h3
        _ = 2 ^ (log2Fuel fuel ((n + 1) / 2) + 1) := (pow_succ' 2 _).symm

theorem le_pow_clog2 (n : ℕ) : n ≤ 2 ^ clog2 n := log2Fuel_le_pow n n le_rfl

theorem clog2_zero : clog2 0 = 0 := rfl

theorem clog2_one : clog2 1 = 0 := rfl

/-- A table needs at least two entries to get a positive dimension. -/
theorem two_le_of_clog2_pos {n : ℕ} (h : 0 < clog2 n) : 2 ≤ n := by
  by_contra hc
  interval_cases n
  · rw [clog2_zero] at h; exact absurd h (lt_irrefl 0)
  · rw [clog2_one] at h; exact absurd h (lt_irrefl 0)

/-! ## Lemmas: the multilinear Lagrange basis -/

theorem basis_append {p : ℕ} (w2 x2 : List (ZMod p)) :
    ∀ (w1 x1 : List (ZMod p)), w1.length = x1.length →
      getMultilinearLagrangeBasis p (w1 ++ w2) (x1 ++ x2) =
        getMultilinearLagrangeBasis p w1 x1 * getMultilinearLagrangeBasis p w2 x2 := by
  intro w1
  induction w1 with
  | nil =>
    intro x1 h
    rw [List.length_nil] at h
    rw [List.eq_nil_of_length_eq_zero h.symm]
    simp [getMultilinearLagrangeBasis]
  | cons a ws ih =>
    intro x1 h
    match x1 with
    | [] => simp at h
    | b :: xs =>
      simp only [List.cons_append, getMultilinearLagrangeBasis, List.append_eq]
      rw [ih xs (by simpa using h), mul_assoc]

/-- Each multilinear basis value is an affine function of any one coordinate of the
evaluation point. -/
theorem basis_affine {p : ℕ} (x : ZMod p) (tau : List (ZMod p)) :
    ∀ (sigma w : List (ZMod p)), w.length = sigma.length + 1 + tau.length →
      getMultilinearLagrangeBasis p w (sigma ++ x :: tau) =
        (1 - x) * getMultilinearLagrangeBasis p w (sigma ++ 0 :: tau) +
          x * getMultilinearLagrangeBasis p w (sigma ++ 1 :: tau) := by
  intro sigma
  induction sigma with
  | nil =>
    intro w h
    cases w with
    | nil => simp only [List.length_nil, List.length_cons] at h; omega
    | cons a ws =>
      simp only [List.nil_append, getMultilinearLagrangeBasis]
      ring
  | cons s sig ih =>
    intro w h
    cases w with
    | nil => simp only [List.length_nil, List.length_cons] at h; omega
    | cons a ws =>
      simp only [List.cons_append, getMultilinearLagrangeBasis, List.append_eq]
      rw [ih ws (by simp only [List.length_cons] at h; omega)]
      ring

/-- On boolean vertices the multilinear basis is the Kronecker delta of the indices. -/
theorem basis_delta {p : ℕ} : ∀ (d k i : ℕ), k < 2 ^ d → i < 2 ^ d →
    getMultilinearLagrangeBasis p ((toBinary k d).map Nat.cast)
      ((toBinary i d).map Nat.cast) = if k = i then 1 else 0 := by
  intro d
  induction d with
  | zero =>
    intro k i hk hi
    have hk0 : k = 0 := by simpa using hk
    have hi0 : i = 0 := by simpa using hi
    subst hk0; subst hi0
    rfl
  | succ d ih =>
    intro k i hk hi
    have hsplit : 2 ^ (d + 1) = 2 ^ d + 2 ^ d := by ring
    rcases Nat.lt_or_ge k (2 ^ d) with hk' | hk' <;>
      rcases Nat.lt_or_ge i (2 ^ d) with hi' | hi'
    · rw [toBinary_of_lt hk', toBinary_of_lt hi']
      simp only [List.map_cons, getMultilinearLagrangeBasis, Nat.cast_zero]
      rw [ih k i hk' hi']
      by_cases h : k = i <;> simp [h]
    · have hi2 : i - 2 ^ d < 2 ^ d := by omega
      have hie : i = 2 ^ d + (i - 2 ^ d) := by omega
      rw [toBinary_of_lt hk', hie, toBinary_add_pow hi2]
      simp only [List.map_cons, getMultilinearLagrangeBasis, Nat.cast_zero, Nat.cast_one]
      rw [if_neg (by omega : ¬ k = 2 ^ d + (i - 2 ^ d))]
      ring
    · have hk2 : k - 2 ^ d < 2 ^ d := by omega
      have hke : k = 2 ^ d + (k - 2 ^ d) := by omega
      rw [toBinary_of_lt hi', hke, toBinary_add_pow hk2]
      simp only [List.map_cons, getMultilinearLagrangeBasis, Nat.cast_zero, Nat.cast_one]
      rw [if_neg (by omega : ¬ 2 ^ d + (k - 2 ^ d) = i)]
      ring
    · have hk2 : k - 2 ^ d < 2 ^ d := by omega
      have hi2 : i - 2 ^ d < 2 ^ d := by omega
      have hke : k = 2 ^ d + (k - 2 ^ d) := by omega
      have hie : i = 2 ^ d + (i - 2 ^ d) := by omega
      rw [hke, hie, toBinary_add_pow hk2, toBinary_add_pow hi2]
      simp only [List.map_cons, getMultilinearLagrangeBasis, Nat.cast_one]
      rw [ih _ _ hk2 hi2]
      have : 2 ^ d + (k - 2 ^ d) = 2 ^ d + (i - 2 ^ d) ↔ k - 2 ^ d = i - 2 ^ d := by omega
      rw [if_congr this rfl rfl]
      by_cases h : k - 2 ^ d = i - 2 ^ d <;> simp [h]

/-! ## Lemmas: the multilinear extension sum -/

/-- Evaluating the extension at the `i`-th hypercube vertex picks out `values[i]`
(zero beyond the table). -/
theorem mleSum_vertex {p : ℕ} (g : List (ZMod p)) (d i : ℕ) (hi : i < 2 ^ d) :
    mleSum p g d ((toBinary i d).map Nat.cast) =
      if i < g.length then g.getD i 0 else 0 := by
  unfold mleSum
  rw [Finset.sum_eq_single_of_mem i (Finset.mem_range.mpr hi)]
  · rw [basis_delta d i i hi hi, if_pos rfl, mul_one]
  · intro k hk hki
    rw [basis_delta d k i (Finset.mem_range.mp hk) hi, if_neg hki, mul_zero]
    simp

/-- The extension sum is affine in each coordinate of the evaluation point. -/
theorem mleSum_affine {p : ℕ} (g : List (ZMod p)) (d : ℕ) (sigma tau : List (ZMod p))
    (x : ZMod p) (h : d = sigma.length + 1 + tau.length) :
    mleSum p g d (sigma ++ x :: tau) =
      (1 - x) * mleSum p g d (sigma ++ 0 :: tau) + x * mleSum p g d (sigma ++ 1 :: tau) := by
  unfold mleSum
  rw [Finset.mul_sum, Finset.mul_sum, ← Finset.sum_add_distrib]
  refine Finset.sum_congr rfl fun i _ => ?_
  by_cases hlen : i < g.length
  · simp only [hlen, if_true]
    rw [basis_affine x tau sigma ((toBinary i d).map Nat.cast)
      (by rw [List.length_map, toBinary_length]; exact h)]
    ring
  · simp [hlen]

/-- `getMultilinearLDE` on a well-dimensioned input returns the extension sum. -/
theorem getMultilinearLDE_ok {p : ℕ} {g r : List (ZMod p)} (hg : g.length ≠ 0)
    (hr : r.length = clog2 g.length) :
    getMultilinearLDE p g r = .ok (mleSum p g (clog2 g.length) r) := by
  simp [getMultilinearLDE, hg, hr]

/-! ## Lemmas: the univariate extension on short tables -/

theorem range_one_eq : List.range 1 = [0] := rfl

theorem range_two_eq : List.range 2 = [0, 1] := rfl

/-- A one-point table interpolates to the constant polynomial. -/
theorem getUnivariateLDE_single {p : ℕ} [Fact p.Prime] (a x : ZMod p) :
    getUnivariateLDE p [a] x = .ok a := by
  by_cases h : x.val < ([a] : List (ZMod p)).length
  · unfold getUnivariateLDE
    rw [if_neg (by simp), if_pos h]
    have h0 : x.val = 0 := by simpa using h
    rw [h0]
    rfl
  · unfold getUnivariateLDE
    rw [if_neg (by simp), if_neg h]
    show (List.range 1).foldlM _ (0 : ZMod p) = _
    rw [range_one_eq]
    simp only [List.foldlM_cons, List.foldlM_nil, getUnivariateLagrangeBasis,
      range_one_eq, if_pos rfl]
    show Except.ok (0 + a * 1) = Except.ok a
    rw [zero_add, mul_one]

/-- A two-point table interpolates to the line through `(0, a)` and `(1, b)`:
`getUnivariateLDE [a, b] x = (1−x)·a + x·b`, on both the fast and the general path. -/
theorem getUnivariateLDE_pair {p : ℕ} [Fact p.Prime] (a b x : ZMod p) :
    getUnivariateLDE p [a, b] x = .ok ((1 - x) * a + x * b) := by
  haveI : NeZero p := ⟨(Fact.out : p.Prime).ne_zero⟩
  by_cases h : x.val < ([a, b] : List (ZMod p)).length
  · unfold getUnivariateLDE
    rw [if_neg (by simp), if_pos h]
    have h2 : x.val = 0 ∨ x.val = 1 := by
      have : x.val < 2 := by simpa using h
      omega
    rcases h2 with h0 | h1
    · have hx : x = 0 := (ZMod.val_eq_zero x).mp h0
      rw [h0, hx]
      show Except.ok a = _
      rw [sub_zero, one_mul, zero_mul, add_zero]
    · have hx : x = 1 := by
        have := ZMod.natCast_rightInverse (n := p) x
        rw [h1] at this
        simpa using this.symm
      rw [h1, hx]
      show Except.ok b = _
      rw [sub_self, zero_mul, one_mul, zero_add]
  · unfold getUnivariateLDE
    rw [if_neg (by simp), if_neg h]
    show (List.range 2).foldlM _ (0 : ZMod p) = _
    rw [range_two_eq]
    have hbasis0 : getUnivariateLagrangeBasis p 0 2 x = .ok ((x - 1) * (-1)⁻¹) := by
      unfold getUnivariateLagrangeBasis
      rw [range_two_eq]
      simp [fdiv]
    have hbasis1 : getUnivariateLagrangeBasis p 1 2 x = .ok (x * 1⁻¹) := by
      unfold getUnivariateLagrangeBasis
      rw [range_two_eq]
      simp [fdiv]
    rw [List.foldlM_cons]
    have hlen : ([a, b] : List (ZMod p)).length = 2 := rfl
    rw [hlen, hbasis0, except_map_ok, except_bind_ok, List.foldlM_cons, hbasis1,
      except_map_ok, except_bind_ok, List.foldlM_nil]
    show Except.ok _ = _
    congr 1
    rw [inv_neg, inv_one]
    show (0 : ZMod p) + a * ((x - 1) * (-1)) + b * (x * 1) = _
    ring

/-- On the one- and two-point tables the protocol uses, `getUnivariateLDE` succeeds with
the `uniEval2` value. -/
theorem getUnivariateLDE_short {p : ℕ} [Fact p.Prime] (l : List (ZMod p)) (x : ZMod p)
    (hne : l ≠ []) (hlen : l.length ≤ 2) :
    getUnivariateLDE p l x = .ok (uniEval2 p l x) := by
  match l with
  | [a] => exact getUnivariateLDE_single a x
  | [a, b] => exact getUnivariateLDE_pair a b x
  | [] => exact absurd rfl hne
  | a :: b :: c :: tl => simp at hlen

/-! ## Lemmas: the JS binary-vector construction matches `toBinary` -/

theorem bitLenFuel_lt_pow : ∀ fuel n, n ≤ fuel → n < 2 ^ bitLenFuel fuel n := by
  intro fuel
  induction fuel with
  | zero =>
    intro n hn
    have h : n = 0 := by omega
    subst h
    norm_num [bitLenFuel]
  | succ fuel ih =>
    intro n hn
    by_cases h0 : n = 0
    · simp [bitLenFuel, h0]
    · have h2 : n / 2 ≤ fuel := by omega
      have h3 := ih (n / 2) h2
      simp only [bitLenFuel, h0, if_false]
      calc n < 2 * (n / 2) + 2 := by omega
        _ ≤ 2 * 2 ^ bitLenFuel fuel (n / 2) := by omega
        _ = 2 ^ (bitLenFuel fuel (n / 2) + 1) := (pow_succ' 2 _).symm

theorem bitLenFuel_le : ∀ fuel n d, n ≤ fuel → n < 2 ^ d → bitLenFuel fuel n ≤ d := by
  intro fuel
  induction fuel with
  | zero => intro n d hn hd; simp [show n = 0 by omega, bitLenFuel]
  | succ fuel ih =>
    intro n d hn hd
    by_cases h0 : n = 0
    · simp [bitLenFuel, h0]
    · obtain ⟨e, rfl⟩ : ∃ e, d = e + 1 := by
        refine ⟨d - 1, ?_⟩
        by_contra hc
        have hd0 : d = 0 := by omega
        rw [hd0, pow_zero] at hd
        omega
      have hsplit : 2 ^ (e + 1) = 2 ^ e + 2 ^ e := by ring
      have h2 : n / 2 < 2 ^ e := by omega
      have h3 := ih (n / 2) e (by omega) h2
      simp only [bitLenFuel, h0, if_false]
      omega

/-- Widening the bit width of `toBinary` pads with leading zeros. -/
theorem toBinary_widen (i b : ℕ) (hi : i < 2 ^ b) :
    ∀ k, toBinary i (b + k) = List.replicate k 0 ++ toBinary i b := by
  intro k
  induction k with
  | zero => rfl
  | succ k ih =>
    have hlt : i < 2 ^ (b + k) :=
      lt_of_lt_of_le hi (Nat.pow_le_pow_right (by norm_num) (Nat.le_add_right b k))
    rw [show b + (k + 1) = (b + k) + 1 by ring, toBinary_of_lt hlt, ih,
      List.replicate_succ, List.cons_append]

/-- For indices in range and positive dimension, the JS `toString(2)`/`padStart` pipeline
produces exactly `toBinary i dim`. -/
theorem padZeros_jsBinaryString (i dim : ℕ) (hdim : 1 ≤ dim) (hi : i < 2 ^ dim) :
    padZeros (jsBinaryString i) dim = toBinary i dim := by
  set b := max 1 (bitLen i) with hb
  have hib : i < 2 ^ b := by
    have h1 : i < 2 ^ bitLen i := bitLenFuel_lt_pow i i le_rfl
    exact lt_of_lt_of_le h1 (Nat.pow_le_pow_right (by norm_num) (le_max_right 1 (bitLen i)))
  have hbd : b ≤ dim := by
    have h1 : bitLen i ≤ dim := bitLenFuel_le i i dim le_rfl hi
    omega
  have hlen : (jsBinaryString i).length = b := by
    rw [jsBinaryString, toBinary_length]
  have hw := toBinary_widen i b hib (dim - b)
  rw [show b + (dim - b) = dim by omega] at hw
  rw [padZeros, hlen, jsBinaryString, ← hb, hw]

/-- For positive dimension, the JS binary-vector list is the canonical `toBinary` list. -/
theorem jsBinaryVectors_eq (p : ℕ) (dim : ℕ) (hdim : 1 ≤ dim) :
    jsBinaryVectors p dim =
      (List.range (2 ^ dim)).map fun i => (toBinary i dim).map (Nat.cast) := by
  unfold jsBinaryVectors
  refine List.map_congr_left fun i hi => ?_
  rw [padZeros_jsBinaryString i dim hdim (List.mem_range.mp hi)]

/-! ## Lemmas: the partial hypercube sums -/

theorem append_singleton_cons {p : ℕ} (rho : List (ZMod p)) (c : ZMod p)
    (l : List (ZMod p)) : (rho ++ [c]) ++ l = rho ++ c :: l := by simp

/-- With the full prefix fixed, the suffix sum degenerates to the single extension value. -/
theorem boolSuffixSum_full {p : ℕ} (g : List (ZMod p)) (v : ℕ) (rho : List (ZMod p))
    (h : rho.length = v) : boolSuffixSum p g v rho = mleSum p g v rho := by
  unfold boolSuffixSum
  rw [h, Nat.sub_self, pow_zero, Finset.sum_range_one]
  show mleSum p g v (rho ++ ([] : List ℕ).map Nat.cast) = _
  rw [List.map_nil, List.append_nil]

/-- Splitting the suffix sum over the first free coordinate. -/
theorem boolSuffixSum_split {p : ℕ} (g : List (ZMod p)) (v : ℕ) (rho : List (ZMod p))
    (h : rho.length < v) :
    boolSuffixSum p g v rho =
      boolSuffixSum p g v (rho ++ [0]) + boolSuffixSum p g v (rho ++ [1]) := by
  unfold boolSuffixSum
  have hlen : ∀ c : ZMod p, (rho ++ [c]).length = rho.length + 1 := by simp
  have h1 : v - rho.length = (v - rho.length - 1) + 1 := by omega
  set k := v - rho.length - 1 with hk
  have h2 : ∀ c : ZMod p, v - (rho ++ [c]).length = k := by
    intro c; rw [hlen]; omega
  rw [h1, h2 0, h2 1, pow_succ, mul_two, Finset.sum_range_add]
  congr 1
  · refine Finset.sum_congr rfl fun i hi => ?_
    rw [toBinary_of_lt (Finset.mem_range.mp hi), List.map_cons, Nat.cast_zero,
      ← append_singleton_cons]
  · refine Finset.sum_congr rfl fun i hi => ?_
    rw [toBinary_add_pow (Finset.mem_range.mp hi), List.map_cons, Nat.cast_one,
      ← append_singleton_cons]

/-- The suffix sum is affine in the last fixed coordinate. -/
theorem boolSuffixSum_affine {p : ℕ} (g : List (ZMod p)) (v : ℕ) (rho : List (ZMod p))
    (x : ZMod p) (h : rho.length < v) :
    boolSuffixSum p g v (rho ++ [x]) =
      (1 - x) * boolSuffixSum p g v (rho ++ [0]) + x * boolSuffixSum p g v (rho ++ [1]) := by
  unfold boolSuffixSum
  have hlen : ∀ c : ZMod p, (rho ++ [c]).length = rho.length + 1 := by simp
  rw [hlen, hlen, hlen, Finset.mul_sum, Finset.mul_sum, ← Finset.sum_add_distrib]
  refine Finset.sum_congr rfl fun i hi => ?_
  rw [append_singleton_cons, append_singleton_cons, append_singleton_cons]
  exact mleSum_affine g v rho ((toBinary i (v - (rho.length + 1))).map Nat.cast) x
    (by rw [List.length_map, toBinary_length]; omega)

/-! ## Lemmas: the honest Prover computations -/

theorem sumMLE_ok {p : ℕ} (g : List (ZMod p)) (points : List (List (ZMod p)))
    (val : List (ZMod p) → ZMod p)
    (h : ∀ pt ∈ points, getMultilinearLDE p g pt = .ok (val pt)) :
    SumCheckProver.sumMLE p g points =
      .ok (points.foldl (fun acc pt => acc + val pt) 0) := by
  unfold SumCheckProver.sumMLE
  refine exceptFoldl_ok _ _ points (fun acc pt hpt => ?_) 0
  rw [h pt hpt, except_map_ok]

/-- The suffix sum at `rr ++ [c]`, written over the cons-form evaluation vectors the
Prover builds. -/
theorem boolSuffixSum_cons_form {p : ℕ} (g : List (ZMod p)) (v : ℕ)
    (rr : List (ZMod p)) (c : ZMod p) :
    boolSuffixSum p g v (rr ++ [c]) =
      ∑ i ∈ Finset.range (2 ^ (v - (rr.length + 1))),
        mleSum p g v (rr ++ c :: (toBinary i (v - (rr.length + 1))).map Nat.cast) := by
  unfold boolSuffixSum
  rw [show (rr ++ [c]).length = rr.length + 1 by simp]
  exact Finset.sum_congr rfl fun i _ => by rw [append_singleton_cons]

/-- The honest round computation of the `sum-check-prover.ts` Prover: when the argument
conventions are respected and one round is still to run, the returned pair is the two
partial hypercube sums at the extended challenge prefix, and the post state has the
challenge appended. -/
theorem proverBinaryVectors_pos {p : ℕ} (dim : ℕ) (hdim : 1 ≤ dim) :
    SumCheckProver.getBinaryVectors p dim =
      (List.range (2 ^ dim)).map fun i => (toBinary i dim).map (Nat.cast) := by
  unfold SumCheckProver.getBinaryVectors
  rw [if_neg (by omega), jsBinaryVectors_eq p dim hdim]

theorem getRoundJPolynomial_honest {p : ℕ} (g : List (ZMod p)) (v : ℕ)
    (r0 : List (ZMod p)) (copt : Option (ZMod p))
    (hg : clog2 g.length = v) (hg0 : g.length ≠ 0)
    (hnone : copt = none → r0 = [])
    (hlen : (r0 ++ copt.toList).length < v) :
    SumCheckProver.getRoundJPolynomial p ⟨v, g, r0⟩ copt =
      (.ok (boolSuffixSum p g v ((r0 ++ copt.toList) ++ [0]),
            boolSuffixSum p g v ((r0 ++ copt.toList) ++ [1])),
       ⟨v, g, r0 ++ copt.toList⟩) := by
  unfold SumCheckProver.getRoundJPolynomial
  set rr := r0 ++ copt.toList with hrr
  have g1 : ¬ v ≤ rr.length := by omega
  have g2 : ¬ (rr.length + 1 = 1 ∧ copt.isSome) := by
    rintro ⟨h1, h2⟩
    cases copt with
    | none => simp at h2
    | some c => rw [hrr] at h1; simp at h1
  have g3 : ¬ (rr.length + 1 ≠ 1 ∧ copt = none) := by
    rintro ⟨h1, h2⟩
    rw [hrr, hnone h2, h2] at h1
    simp at h1
  rw [if_neg g1, if_neg g2, if_neg g3]
  have hmle : ∀ (c : ZMod p) (w : List ℕ),
      w.length = v - (rr.length + 1) →
      getMultilinearLDE p g (rr ++ c :: w.map Nat.cast) =
        .ok (mleSum p g v (rr ++ c :: w.map Nat.cast)) := by
    intro c w hw
    rw [show mleSum p g v = mleSum p g (clog2 g.length) by rw [hg]]
    refine getMultilinearLDE_ok hg0 ?_
    rw [hg]
    simp only [List.length_append, List.length_cons, List.length_map, hw]
    omega
  by_cases hdim : v - (rr.length + 1) = 0
  · -- final round: the dimension-0 guard yields no binary vectors
    rw [SumCheckProver.getBinaryVectors, if_pos hdim]
    rw [if_neg (by simp)]
    have hv : v = rr.length + 1 := by omega
    have h0 := hmle 0 [] (by simpa using hdim.symm)
    have h1 := hmle 1 [] (by simpa using hdim.symm)
    simp only [List.map_nil] at h0 h1
    rw [show rr ++ (0 : ZMod p) :: [] = rr ++ [0] from rfl] at h0
    rw [show rr ++ (1 : ZMod p) :: [] = rr ++ [1] from rfl] at h1
    rw [h0, except_bind_ok, h1, except_bind_ok,
      ← boolSuffixSum_full g v (rr ++ [0]) (by simp; omega),
      ← boolSuffixSum_full g v (rr ++ [1]) (by simp; omega)]
  · -- a later round remains: sum over the free sub-hypercube
    have hdim1 : 1 ≤ v - (rr.length + 1) := by omega
    rw [proverBinaryVectors_pos _ hdim1]
    rw [if_pos (by simp)]
    have hsum : ∀ c : ZMod p,
        SumCheckProver.sumMLE p g
          (((List.range (2 ^ (v - (rr.length + 1)))).map fun i =>
              (toBinary i (v - (rr.length + 1))).map Nat.cast).map
            fun vector => rr ++ c :: vector) =
          .ok (boolSuffixSum p g v (rr ++ [c])) := by
      intro c
      rw [List.map_map]
      rw [sumMLE_ok g _ (fun pt => mleSum p g v pt) ?hpt]
      case hpt =>
        intro pt hpt
        obtain ⟨i, hi, rfl⟩ := List.mem_map.mp hpt
        exact hmle c (toBinary i (v - (rr.length + 1))) (toBinary_length _ _)
      rw [foldl_add_eq_sum, zero_add, List.map_map, map_range_sum,
        boolSuffixSum_cons_form]
      exact congrArg Except.ok (Finset.sum_congr rfl fun i _ => rfl)
    rw [hsum 0, except_bind_ok, hsum 1, except_bind_ok]

/-- `getProposedSum` on an honest prover state is the full hypercube sum. -/
theorem getProposedSum_honest {p : ℕ} (g : List (ZMod p)) (v : ℕ) (rho : List (ZMod p))
    (hg : clog2 g.length = v) (hg0 : g.length ≠ 0) (hv : 1 ≤ v) :
    SumCheckProver.getProposedSum p ⟨v, g, rho⟩ = .ok (boolSuffixSum p g v []) := by
  show SumCheckProver.sumMLE p g (SumCheckProver.getBinaryVectors p v) = _
  rw [proverBinaryVectors_pos v hv]
  rw [sumMLE_ok g _ (fun pt => mleSum p g v pt) ?hpt]
  case hpt =>
    intro pt hpt
    obtain ⟨i, hi, rfl⟩ := List.mem_map.mp hpt
    rw [show mleSum p g v = mleSum p g (clog2 g.length) by rw [hg]]
    refine getMultilinearLDE_ok hg0 ?_
    rw [hg, List.length_map, toBinary_length]
  rw [foldl_add_eq_sum, zero_add, List.map_map, map_range_sum]
  unfold boolSuffixSum
  rw [List.length_nil, Nat.sub_zero]
  simp only [List.nil_append]
  exact congrArg Except.ok (Finset.sum_congr rfl fun i _ => rfl)

/-! ## Lemmas: the honest Verifier rounds -/

theorem getUnivariateLDE_pair_zero {p : ℕ} [Fact p.Prime] (a b : ZMod p) :
    getUnivariateLDE p [a, b] 0 = .ok a := by
  rw [getUnivariateLDE_pair]
  congr 1
  ring

theorem getUnivariateLDE_pair_one {p : ℕ} [Fact p.Prime] (a b : ZMod p) :
    getUnivariateLDE p [a, b] 1 = .ok b := by
  rw [getUnivariateLDE_pair]
  congr 1
  ring

theorem getD_concat_length {α : Type} (x d : α) :
    ∀ l : List α, (l ++ [x]).getD l.length d = x := by
  intro l
  induction l with
  | nil => rfl
  | cons a tl ih => exact ih

theorem getD_last {α : Type} (d : α) (l : List α) (h : l ≠ []) :
    l.getD (l.length - 1) d = l.getLast h := by
  conv_lhs => rw [← List.dropLast_append_getLast h]
  rw [show (l.dropLast ++ [l.getLast h]).length - 1 = l.dropLast.length by simp]
  exact getD_concat_length _ _ _

theorem roundPolys_length {p : ℕ} (g : List (ZMod p)) (v : ℕ) (chals : List (ZMod p)) :
    (roundPolys p g v chals).length = chals.length := by simp [roundPolys]

theorem roundPolys_snoc {p : ℕ} (g : List (ZMod p)) (v : ℕ) (chals : List (ZMod p))
    (c : ZMod p) :
    roundPolys p g v (chals ++ [c]) =
      roundPolys p g v chals ++
        [[boolSuffixSum p g v (chals ++ [0]), boolSuffixSum p g v (chals ++ [1])]] := by
  unfold roundPolys
  rw [show (chals ++ [c]).length = chals.length + 1 by simp, List.range_succ,
    List.map_append]
  congr 1
  · refine List.map_congr_left fun t ht => ?_
    have htle : t ≤ chals.length := le_of_lt (List.mem_range.mp ht)
    rw [List.take_append_of_le_length htle]
  · rw [List.map_cons, List.map_nil, List.take_left]

theorem roundPolys_getD_last {p : ℕ} (g : List (ZMod p)) (v : ℕ) (chals : List (ZMod p))
    (h : chals ≠ []) :
    (roundPolys p g v chals).getD (chals.length - 1) [] =
      [boolSuffixSum p g v (chals.dropLast ++ [0]),
       boolSuffixSum p g v (chals.dropLast ++ [1])] := by
  conv_lhs => rw [← List.dropLast_append_getLast h]
  rw [roundPolys_snoc,
    show (chals.dropLast ++ [chals.getLast h]).length - 1 = chals.dropLast.length by simp,
    show chals.dropLast.length = (roundPolys p g v chals.dropLast).length from
      (roundPolys_length g v chals.dropLast).symm]
  exact getD_concat_length _ _ _

/-- The honest round message passes the iterative Verifier's checks: with the claim
carried forward from the previous round, `g_j(0) + g_j(1)` matches, the fresh challenge is
returned, and the state advances by the stored polynomial and challenge. -/
theorem verifyRoundJPolynomial_honest {p : ℕ} [Fact p.Prime] (g : List (ZMod p)) (v : ℕ)
    (chals : List (ZMod p)) (c : ZMod p) (hlen : chals.length < v) :
    SumCheckIterative.verifyRoundJPolynomial p
        ⟨v, boolSuffixSum p g v [], roundPolys p g v chals, chals⟩
        [boolSuffixSum p g v (chals ++ [0]), boolSuffixSum p g v (chals ++ [1])] c =
      .ok (c, ⟨v, boolSuffixSum p g v [], roundPolys p g v (chals ++ [c]),
        chals ++ [c]⟩) := by
  unfold SumCheckIterative.verifyRoundJPolynomial
  dsimp only
  rw [if_neg (by simp; omega), if_neg (by simp), getUnivariateLDE_pair_zero,
    except_bind_ok, getUnivariateLDE_pair_one, except_bind_ok]
  rcases List.eq_nil_or_concat chals with hnil | ⟨dl, last, rfl⟩
  · subst hnil
    rw [if_pos (by simp), if_pos (boolSuffixSum_split g v [] (by simpa using hlen)).symm,
      except_bind_ok, roundPolys_snoc]
  · simp only [List.concat_eq_append] at hlen ⊢
    rw [if_neg (by simp)]
    have hdl : dl ++ [last] ≠ [] := by simp
    rw [show (dl ++ [last]).length + 1 - 2 = (dl ++ [last]).length - 1 by simp,
      roundPolys_getD_last g v (dl ++ [last]) hdl, getD_last 0 (dl ++ [last]) hdl]
    rw [List.dropLast_concat, List.getLast_concat, getUnivariateLDE_pair, except_bind_ok]
    have hPrev : (1 - last) * boolSuffixSum p g v (dl ++ [0]) +
        last * boolSuffixSum p g v (dl ++ [1]) = boolSuffixSum p g v (dl ++ [last]) :=
      (boolSuffixSum_affine g v dl last (by simp at hlen; omega)).symm
    rw [hPrev, if_pos (boolSuffixSum_split g v (dl ++ [last]) hlen).symm,
      except_bind_ok]
    conv_rhs => rw [roundPolys_snoc g v (dl ++ [last]) c]

/-- The honest oracle query passes: `g~(r)` equals `g_v(r_v)`. -/
theorem verifyOracleQueryOfG_honest {p : ℕ} [Fact p.Prime] (g : List (ZMod p)) (v : ℕ)
    (chals : List (ZMod p)) (hg : clog2 g.length = v) (hg0 : g.length ≠ 0)
    (hv : 1 ≤ v) (hlen : chals.length = v) :
    SumCheckIterative.verifyOracleQueryOfG p
      ⟨v, boolSuffixSum p g v [], roundPolys p g v chals, chals⟩ g = .ok () := by
  have hne : chals ≠ [] := by
    intro hc
    rw [hc] at hlen
    simp at hlen
    omega
  unfold SumCheckIterative.verifyOracleQueryOfG
  rw [if_neg (by simp [roundPolys_length, hlen])]
  rw [getMultilinearLDE_ok hg0 (by rw [hg]; exact hlen), except_bind_ok, hg]
  rw [roundPolys_length, show chals.length - 1 = chals.length - 1 from rfl,
    roundPolys_getD_last g v chals hne, getD_last 0 chals hne,
    getUnivariateLDE_pair, except_bind_ok]
  have hPrev : (1 - chals.getLast hne) * boolSuffixSum p g v (chals.dropLast ++ [0]) +
      chals.getLast hne * boolSuffixSum p g v (chals.dropLast ++ [1]) =
        boolSuffixSum p g v (chals.dropLast ++ [chals.getLast hne]) :=
    (boolSuffixSum_affine g v chals.dropLast (chals.getLast hne)
      (by simp [hlen]; omega)).symm
  rw [hPrev, List.dropLast_append_getLast hne,
    boolSuffixSum_full g v chals hlen, if_pos rfl]

/-! ## Lemmas: the full honest run -/

theorem dropLast_append_getLast_toList {p : ℕ} (l : List (ZMod p)) :
    l.dropLast ++ l.getLast?.toList = l := by
  rcases List.eq_nil_or_concat l with rfl | ⟨dl, a, rfl⟩
  · rfl
  · simp only [List.concat_eq_append, List.dropLast_concat, List.getLast?_concat,
      Option.toList_some]

/-- The invariant of the round loop: after the rounds with challenges `rho` have run
honestly, running the remaining challenges `cs` succeeds and extends the states to
`rho ++ cs`. -/
theorem runRounds_honest {p : ℕ} [Fact p.Prime] (g : List (ZMod p)) (v : ℕ)
    (hg : clog2 g.length = v) (hg0 : g.length ≠ 0) :
    ∀ (cs rho : List (ZMod p)), rho.length + cs.length = v →
      runRounds p ⟨v, g, rho.dropLast⟩
          ⟨v, boolSuffixSum p g v [], roundPolys p g v rho, rho⟩ rho.getLast? cs =
        .ok (⟨v, g, (rho ++ cs).dropLast⟩,
          ⟨v, boolSuffixSum p g v [], roundPolys p g v (rho ++ cs), rho ++ cs⟩,
          (rho ++ cs).getLast?) := by
  intro cs
  induction cs with
  | nil =>
    intro rho h
    rw [List.append_nil]
    rfl
  | cons c rest ih =>
    intro rho h
    simp only [List.length_cons] at h
    have hlenr : rho.length < v := by omega
    have hprov := getRoundJPolynomial_honest g v rho.dropLast rho.getLast? hg hg0
      (fun hn => by
        have : rho = [] := by
          cases rho with
          | nil => rfl
          | cons a tl => rw [List.getLast?_cons] at hn; simp at hn
        rw [this]
        rfl)
      (by rw [dropLast_append_getLast_toList]; omega)
    rw [dropLast_append_getLast_toList] at hprov
    have hver := verifyRoundJPolynomial_honest g v rho c hlenr
    have hlen2 : (rho ++ [c]).length + rest.length = v := by
      simp only [List.length_append, List.length_cons, List.length_nil]
      omega
    have hrec := ih (rho ++ [c]) hlen2
    rw [List.dropLast_concat, List.getLast?_concat,
      show (rho ++ [c]) ++ rest = rho ++ c :: rest by simp] at hrec
    simp only [runRounds]
    rw [hprov]
    simp only [except_bind_ok]
    rw [hver]
    simp only [except_bind_ok]
    exact hrec

/-- The two protocol states after all `v` honest rounds. -/
theorem runProtocolStates_honest {p : ℕ} [Fact p.Prime] (g : List (ZMod p)) (v : ℕ)
    (chals : List (ZMod p)) (hg : clog2 g.length = v) (hv : 1 ≤ v)
    (hchals : chals.length = v) :
    runProtocolStates p g v chals =
      .ok (⟨v, g, chals.dropLast⟩,
        ⟨v, boolSuffixSum p g v [], roundPolys p g v chals, chals⟩) := by
  have hg0 : g.length ≠ 0 := by
    intro h0
    rw [h0, clog2_zero] at hg
    omega
  have hle : g.length ≤ 2 ^ v := by rw [← hg]; exact le_pow_clog2 _
  unfold runProtocolStates SumCheckProver.mkProver
  rw [if_neg (by omega), except_bind_ok, getProposedSum_honest g v [] hg hg0 hv,
    except_bind_ok]
  have hr := runRounds_honest g v hg hg0 chals [] (by simpa using hchals)
  simp only [List.dropLast_nil, List.getLast?_nil, List.nil_append] at hr
  rw [show roundPolys p g v ([] : List (ZMod p)) = [] from rfl] at hr
  dsimp only
  rw [hr, except_bind_ok]

/-- The complete honest protocol run accepts. -/
theorem runProtocol_honest {p : ℕ} [Fact p.Prime] (g : List (ZMod p)) (v : ℕ)
    (chals : List (ZMod p)) (hg : clog2 g.length = v) (hv : 1 ≤ v)
    (hchals : chals.length = v) :
    runProtocol p g v chals = .ok () := by
  have hg0 : g.length ≠ 0 := by
    intro h0
    rw [h0, clog2_zero] at hg
    omega
  unfold runProtocol
  rw [runProtocolStates_honest g v chals hg hv hchals, except_bind_ok]
  exact verifyOracleQueryOfG_honest g v chals hg hg0 hv hchals

/-! ## Lemmas: the univariate general path never divides by zero -/

/-- Distinct interpolation node indices below the field order stay distinct as field
elements, so the basis denominators are nonzero. -/
theorem natCast_sub_ne_zero {p : ℕ} {i j n : ℕ} (hi : i < n) (hj : j < n)
    (hne : i ≠ j) (hnp : n ≤ p) : (i : ZMod p) - (j : ZMod p) ≠ 0 := by
  intro h
  rw [sub_eq_zero] at h
  have hii : ((i : ℕ) : ZMod p).val = i := ZMod.val_cast_of_lt (by omega)
  have hjj : ((j : ℕ) : ZMod p).val = j := ZMod.val_cast_of_lt (by omega)
  rw [h, hjj] at hii
  exact hne hii.symm

theorem getUnivariateLagrangeBasis_exists_ok {p : ℕ} (index n : ℕ) (x : ZMod p)
    (hindex : index < n) (hnp : n ≤ p) :
    ∃ y, getUnivariateLagrangeBasis p index n x = .ok y := by
  unfold getUnivariateLagrangeBasis
  refine exceptFoldl_exists_ok _ _ (fun acc j hj => ?_) 1
  by_cases hji : j = index
  · exact ⟨acc, by rw [if_pos hji]⟩
  · have hjn : j < n := List.mem_range.mp hj
    refine ⟨acc * ((x - (j : ZMod p)) * ((index : ZMod p) - (j : ZMod p))⁻¹), ?_⟩
    rw [if_neg hji, fdiv, if_neg (natCast_sub_ne_zero hindex hjn (Ne.symm hji) hnp),
      except_map_ok]

theorem getUnivariateLDE_exists_ok {p : ℕ} (values : List (ZMod p)) (x : ZMod p)
    (hne : values ≠ []) (hnp : values.length ≤ p) :
    ∃ y, getUnivariateLDE p values x = .ok y := by
  unfold getUnivariateLDE
  rw [if_neg (by simpa using hne)]
  by_cases h : x.val < values.length
  · rw [if_pos h]
    exact ⟨_, rfl⟩
  · rw [if_neg h]
    refine exceptFoldl_exists_ok _ _ (fun acc i hi => ?_) 0
    obtain ⟨y, hy⟩ :=
      getUnivariateLagrangeBasis_exists_ok i values.length x (List.mem_range.mp hi) hnp
    exact ⟨acc + values.getD i 0 * y, by rw [hy, except_map_ok]⟩

/-! ## Lemmas: the naive and memoized message evaluators -/

theorem interpSet_head (d : ℕ) : (generateBinaryVertices d).getD 0 [] = toBinary 0 d := by
  unfold generateBinaryVertices
  rw [List.getD_eq_getElem?_getD, List.getElem?_map,
    List.getElem?_range (Nat.pos_pow_of_pos d (by norm_num))]
  rfl

/-- The naive message evaluator on a valid message and a well-dimensioned point. -/
theorem getMultilinearLagrange_ok {p : ℕ} (message : List ℕ) (x : List (ZMod p))
    (hvalid : ∀ c ∈ message, c ≤ 127) (hne : message.length ≠ 0)
    (hx : x.length = clog2 message.length) :
    getMultilinearLagrange p message x = .ok (msgMLE p message x) := by
  unfold getMultilinearLagrange
  rw [if_neg hne]
  have hstep := exceptFoldl_ok
    (fun (acc : ZMod p) (i : ℕ) => do
      let coefficient : ZMod p ←
        if i < message.length then
          (asciiToNumber (message.getD i 0)).map Nat.cast
        else .ok 0
      let lagrangeBasisAtInput ←
        getMultilinearLagrangeBasisAt p (toBinary i (clog2 message.length))
          (generateBinaryVertices (clog2 message.length)) x
      .ok (acc + coefficient * lagrangeBasisAtInput))
    (fun acc i => acc + msgCoef p message i *
      getMultilinearLagrangeBasis p ((toBinary i (clog2 message.length)).map Nat.cast) x)
    (List.range (2 ^ clog2 message.length)) ?hok 0
  case hok =>
    intro acc i _
    dsimp only
    have hbasis : getMultilinearLagrangeBasisAt p (toBinary i (clog2 message.length))
        (generateBinaryVertices (clog2 message.length)) x =
          .ok (getMultilinearLagrangeBasis p
            ((toBinary i (clog2 message.length)).map Nat.cast) x) := by
      rw [getMultilinearLagrangeBasisAt,
        if_neg (by rw [interpSet_head, toBinary_length, toBinary_length, hx]; simp)]
    by_cases hil : i < message.length
    · have hmem : message.getD i 0 ∈ message := by
        rw [List.getD_eq_getElem?_getD, List.getElem?_eq_getElem hil, Option.getD_some]
        exact List.getElem_mem hil
      rw [if_pos hil, asciiToNumber, if_neg (not_lt.mpr (hvalid _ hmem)), except_map_ok,
        except_bind_ok, hbasis, except_bind_ok]
      unfold msgCoef
      rw [if_pos hil]
    · rw [if_neg hil, except_bind_ok, hbasis, except_bind_ok]
      unfold msgCoef
      rw [if_neg hil]
  rw [hstep]
  unfold msgMLE
  rw [foldl_add_eq_sum, zero_add, map_range_sum]

theorem clog2_ge_one {n : ℕ} (h : 2 ≤ n) : 1 ≤ clog2 n := by
  by_contra hc
  have h0 : clog2 n = 0 := by omega
  have := le_pow_clog2 n
  rw [h0, pow_zero] at this
  omega

/-- A basis product over a snoc decomposes into the product over the prefix times the
last coordinate's factor. -/
theorem basis_snoc {p : ℕ} (w : List ℕ) (bbit : ℕ) (x : List (ZMod p)) (xl : ZMod p)
    (h : w.length = x.length) :
    getMultilinearLagrangeBasis p ((w ++ [bbit]).map Nat.cast) (x ++ [xl]) =
      getMultilinearLagrangeBasis p (w.map Nat.cast) x *
        ((bbit : ZMod p) * xl + (1 - (bbit : ZMod p)) * (1 - xl)) := by
  rw [List.map_append, basis_append _ _ _ _ (by simpa using h), List.map_cons,
    List.map_nil]
  show _ * (((bbit : ZMod p) * xl + (1 - (bbit : ZMod p)) * (1 - xl)) * 1) = _
  rw [mul_one]

/-- Mapping over a doubled range is the flat map pairing even and odd indices. -/
theorem map_range_double {α : Type} (h : ℕ → α) :
    ∀ n, (List.range (2 * n)).map h =
      (List.range n).flatMap fun i => [h (2 * i), h (2 * i + 1)] := by
  intro n
  induction n with
  | zero => rfl
  | succ n ih =>
    rw [show 2 * (n + 1) = (2 * n + 1) + 1 by ring, List.range_succ, List.range_succ,
      List.map_append, List.map_append, List.range_succ, List.flatMap_append, ih]
    simp

/-- The dynamic-programming table of `memoizedLagrangeBasis` holds exactly the `2^d`
multilinear basis values in canonical vertex order. -/
theorem memoTable_eq {p : ℕ} (x0 : ZMod p) :
    ∀ rest : List (ZMod p),
      rest.foldl (fun prevRound xi => prevRound.flatMap fun e => [e * (1 - xi), e * xi])
          [1 - x0, x0] =
        (List.range (2 ^ (rest.length + 1))).map fun i =>
          getMultilinearLagrangeBasis p ((toBinary i (rest.length + 1)).map Nat.cast)
            (x0 :: rest) := by
  intro rest
  induction rest using List.reverseRecOn with
  | nil =>
    rw [List.foldl_nil]
    simp only [List.length_nil, zero_add, pow_one]
    rw [range_two_eq, List.map_cons, List.map_cons, List.map_nil,
      show toBinary 0 1 = [0] from rfl, show toBinary 1 1 = [1] from rfl]
    simp only [List.map_cons, List.map_nil, Nat.cast_zero, Nat.cast_one,
      getMultilinearLagrangeBasis, List.cons.injEq]
    exact ⟨by ring, by ring, trivial⟩
  | append_singleton rs xl ih =>
    rw [List.foldl_append, List.foldl_cons, List.foldl_nil, ih]
    rw [show (rs ++ [xl]).length + 1 = (rs.length + 1) + 1 by simp, List.flatMap_map]
    conv_rhs => rw [show (2 : ℕ) ^ (rs.length + 1 + 1) = 2 * 2 ^ (rs.length + 1) by ring,
      map_range_double]
    refine List.flatMap_congr fun i hi => ?_
    have hsplit0 : toBinary (2 * i) (rs.length + 1 + 1) =
        toBinary i (rs.length + 1) ++ [0] := by
      rw [toBinary_succ_lsb, Nat.mul_div_cancel_left i (by norm_num),
        Nat.mul_mod_right]
    have hsplit1 : toBinary (2 * i + 1) (rs.length + 1 + 1) =
        toBinary i (rs.length + 1) ++ [1] := by
      rw [toBinary_succ_lsb,
        show (2 * i + 1) / 2 = i by omega, show (2 * i + 1) % 2 = 1 by omega]
    show [_, _] = [_, _]
    rw [show x0 :: (rs ++ [xl]) = (x0 :: rs) ++ [xl] from rfl, hsplit0, hsplit1,
      basis_snoc _ _ _ _ (by simp [toBinary_length]),
      basis_snoc _ _ _ _ (by simp [toBinary_length])]
    rw [Nat.cast_zero, Nat.cast_one]
    simp only [List.cons.injEq]
    exact ⟨by ring, by ring, trivial⟩

/-- The memoized message evaluator on a valid message of length at least two agrees with
the shared sum. -/
theorem getMemoizedMultilinearLagrange_ok {p : ℕ} (message : List ℕ) (r : List (ZMod p))
    (hvalid : ∀ c ∈ message, c ≤ 127) (h2 : 2 ≤ message.length)
    (hr : r.length = clog2 message.length) :
    getMemoizedMultilinearLagrange p message r = .ok (msgMLE p message r) := by
  have hne : message.length ≠ 0 := by omega
  have hd1 : 1 ≤ clog2 message.length := clog2_ge_one h2
  unfold getMemoizedMultilinearLagrange
  rw [if_neg hne, if_neg (by omega)]
  have hv1 : (List.range (2 ^ clog2 message.length)).mapM
      (fun i => if i < message.length then
          (asciiToNumber (message.getD i 0)).map (Nat.cast : ℕ → ZMod p)
        else .ok 0) =
      .ok ((List.range (2 ^ clog2 message.length)).map (msgCoef p message)) := by
    refine exceptMapM_ok _ _ _ fun i _ => ?_
    by_cases hil : i < message.length
    · have hmem : message.getD i 0 ∈ message := by
        rw [List.getD_eq_getElem?_getD, List.getElem?_eq_getElem hil, Option.getD_some]
        exact List.getElem_mem hil
      rw [if_pos hil, asciiToNumber, if_neg (not_lt.mpr (hvalid _ hmem)), except_map_ok,
        msgCoef, if_pos hil]
    · rw [if_neg hil, msgCoef, if_neg hil]
  rw [hv1, except_bind_ok]
  obtain ⟨r0, rest, rfl⟩ : ∃ r0 rest, r = r0 :: rest := by
    cases r with
    | nil => rw [List.length_nil] at hr; omega
    | cons r0 rest => exact ⟨r0, rest, rfl⟩
  rw [memoizedLagrangeBasis, except_bind_ok]
  have hd : rest.length + 1 = clog2 message.length := by simpa using hr
  rw [memoTable_eq, hd]
  rw [List.zip_map']
  have hfold := foldl_add_eq_sum
    (fun e : ZMod p × ZMod p => e.1 * e.2)
    (((List.range (2 ^ clog2 message.length)).map fun a =>
      (msgCoef p message a,
       getMultilinearLagrangeBasis p ((toBinary a (clog2 message.length)).map Nat.cast)
         (r0 :: rest)))) 0
  rw [hfold, zero_add, List.map_map, map_range_sum]
  unfold msgMLE
  exact congrArg Except.ok (Finset.sum_congr rfl fun i _ => rfl)

/-- On every valid input with at least two characters the two multilinear message
evaluators agree. -/
theorem messageEvaluators_agree {p : ℕ} (message : List ℕ) (r : List (ZMod p))
    (hvalid : ∀ c ∈ message, c ≤ 127) (h2 : 2 ≤ message.length)
    (hr : r.length = clog2 message.length) :
    getMultilinearLagrange p message r = getMemoizedMultilinearLagrange p message r := by
  rw [getMultilinearLagrange_ok message r hvalid (by omega) hr,
    getMemoizedMultilinearLagrange_ok message r hvalid h2 hr]

/-! ## Lemmas: the proposed sum is the table sum; error classification -/

theorem sum_range_getD {p : ℕ} (g : List (ZMod p)) :
    ∀ n, g.length ≤ n →
      (∑ i ∈ Finset.range n, if i < g.length then g.getD i 0 else 0) = g.sum := by
  have hbase : ∀ h : List (ZMod p),
      (∑ i ∈ Finset.range h.length, h.getD i 0) = h.sum := by
    intro h
    induction h with
    | nil => rfl
    | cons a tl ih =>
      rw [List.length_cons, Finset.sum_range_succ', List.sum_cons]
      have : ∀ i : ℕ, (a :: tl).getD (i + 1) 0 = tl.getD i 0 := fun i => rfl
      rw [Finset.sum_congr rfl fun i _ => this i, ih]
      show tl.sum + a = a + tl.sum
      ring
  intro n hn
  rw [← Finset.sum_subset (Finset.range_subset.mpr hn)
    (fun x _ hx => by rw [if_neg (by simpa using hx)])]
  rw [Finset.sum_congr rfl fun i hi => if_pos (Finset.mem_range.mp hi), hbase]

/-- The full-prefix hypercube sum is simply the sum of the table entries. -/
theorem boolSuffixSum_nil_eq_sum {p : ℕ} (g : List (ZMod p)) (v : ℕ)
    (hle : g.length ≤ 2 ^ v) :
    boolSuffixSum p g v [] = g.sum := by
  unfold boolSuffixSum
  rw [List.length_nil, Nat.sub_zero]
  rw [Finset.sum_congr rfl fun i hi => by
    rw [List.nil_append, mleSum_vertex g v i (Finset.mem_range.mp hi)]]
  exact sum_range_getD g _ hle

/-- The `sum-check.ts` proposed sum coincides with the `sum-check-prover.ts` one for
every positive arity. -/
theorem scTs_getProposedSum_eq {p : ℕ} (st : SumCheckProver.Prover p) (hv : 1 ≤ st.v) :
    SumCheckTs.getProposedSum p st = SumCheckProver.getProposedSum p st := by
  unfold SumCheckTs.getProposedSum SumCheckProver.getProposedSum
    SumCheckTs.getBinaryVectors SumCheckProver.getBinaryVectors
  rw [if_neg (by omega)]

/-- The multilinear evaluator only fails with the empty-input or dimension errors. -/
theorem getMultilinearLDE_error_cases {p : ℕ} {g r : List (ZMod p)} {e : Err}
    (h : getMultilinearLDE p g r = .error e) :
    e = .emptyInput ∨ e = .dimensionMismatch := by
  unfold getMultilinearLDE at h
  by_cases h1 : g.length = 0
  · rw [if_pos h1] at h
    injection h with h
    exact Or.inl h.symm
  · rw [if_neg h1] at h
    by_cases h2 : r.length ≠ clog2 g.length
    · rw [if_pos h2] at h
      injection h with h
      exact Or.inr h.symm
    · rw [if_neg h2] at h
      exact absurd h (by simp)

/-- The summation loop only fails with an error of one of its multilinear calls. -/
theorem sumMLE_error_cases {p : ℕ} {g : List (ZMod p)} {e : Err} :
    ∀ {pts : List (List (ZMod p))} {init : ZMod p},
      pts.foldlM (fun acc point => (getMultilinearLDE p g point).map fun x => acc + x)
          init = .error e →
      e = .emptyInput ∨ e = .dimensionMismatch := by
  intro pts
  induction pts with
  | nil => intro init h; exact absurd h (by rw [List.foldlM_nil]; exact fun hc => by injection hc)
  | cons pt rest ih =>
    intro init h
    rw [List.foldlM_cons] at h
    cases hm : getMultilinearLDE p g pt with
    | error e2 =>
      rw [hm, except_map_error, except_bind_error] at h
      injection h with h
      exact h ▸ getMultilinearLDE_error_cases hm
    | ok y =>
      rw [hm, except_map_ok, except_bind_ok] at h
      exact ih h

/-! ## The claims -/

/-- C1 (counterexample): the completeness claim fails as stated.  The table `g = [5]`
with `v = 1` is non-empty and respects `length ≤ 2^v`, yet the honest run raises a
dimension mismatch at the proposed-sum computation (the multilinear evaluator derives
dimension `⌈log₂ 1⌉ = 0 ≠ v` from the table length) instead of ending in acceptance. -/
theorem C1_counterexample :
    runProtocol 101 [5] 1 [0] = .error .dimensionMismatch ∧
      runProtocol 101 [5] 1 [0] ≠ .ok () := ⟨rfl, by decide⟩

/-- C1 (amended): protocol completeness holds for the tables whose length yields exactly
`v` dimensions — `1 ≤ v` and `⌈log₂ g.length⌉ = v`, i.e. `2^(v−1) < g.length ≤ 2^v`.
For every such table and every sequence of `v` verifier challenges, the full honest run —
construction, proposed sum, all `v` rounds through `verifyRoundJPolynomial`, and the
final `verifyOracleQueryOfG` — ends in acceptance with no error at any step. -/
theorem C1_protocol_completeness (p : ℕ) [Fact p.Prime] (g : List (ZMod p)) (v : ℕ)
    (challenges : List (ZMod p)) (hg : clog2 g.length = v) (hv : 1 ≤ v)
    (hchals : challenges.length = v) :
    runProtocol p g v challenges = .ok () :=
  runProtocol_honest g v challenges hg hv hchals

/-- C1 (witness): a complete accepted run at `p = 101`, `g = [2, 3]`, `v = 1`, with a
challenge far outside the table. -/
theorem C1_witness : runProtocol 101 [2, 3] 1 [57] = .ok () := by
  have hg : clog2 ([2, 3] : List (ZMod 101)).length = 1 := by decide
  haveI : Fact (Nat.Prime 101) := ⟨by norm_num⟩
  exact C1_protocol_completeness 101 [2, 3] 1 [57] hg (by norm_num) rfl

/-- C2: the iterative Verifier's round check rejects with the sum-mismatch error exactly
when `g_j(0) + g_j(1)` differs from the expected value — the proposed sum in round 1 and
`UnivariateLDE(g_{j−1}, r_{j−1})` in rounds `j > 1` — and otherwise returns the fresh
challenge and advances the state; the `sum-check.ts` Verifier instead accepts a
mismatched polynomial, because it negates the (always truthy) o1js `Bool` object rather
than its boolean value. -/
theorem C2_round_sum_check :
    (∀ (p : ℕ) (_ : Fact p.Prime) (st : SumCheckIterative.Verifier p)
      (g_j : List (ZMod p)) (c : ZMod p),
      st.r.length < st.v → g_j ≠ [] → g_j.length ≤ 2 →
      st.polynomials.length = st.r.length →
      (∀ q ∈ st.polynomials, q ≠ [] ∧ q.length ≤ 2) →
      SumCheckIterative.verifyRoundJPolynomial p st g_j c =
        (if uniEval2 p g_j 0 + uniEval2 p g_j 1 =
            (if st.r.length = 0 then st.proposedSum
             else uniEval2 p (st.polynomials.getD (st.r.length - 1) [])
               (st.r.getD (st.r.length - 1) 0))
         then .ok (c, ⟨st.v, st.proposedSum, st.polynomials ++ [g_j], st.r ++ [c]⟩)
         else .error .sumMismatch)) ∧
    SumCheckTs.verifyRoundJPolynomial 101 ⟨1, 0, [], []⟩ [1, 0] 7 =
      .ok (7, ⟨1, 0, [[1, 0]], [7]⟩) := by
  refine ⟨?_, rfl⟩
  intro p hp st g_j c hlt hne hlen hpl hq
  haveI := hp
  unfold SumCheckIterative.verifyRoundJPolynomial
  dsimp only
  rw [if_neg (by omega), if_neg (by omega), getUnivariateLDE_short g_j 0 hne hlen,
    except_bind_ok, getUnivariateLDE_short g_j 1 hne hlen, except_bind_ok]
  by_cases h1 : st.r.length = 0
  · rw [if_pos (by omega), if_pos h1]
    by_cases hs : uniEval2 p g_j 0 + uniEval2 p g_j 1 = st.proposedSum
    · rw [if_pos hs, if_pos hs, except_bind_ok]
    · rw [if_neg hs, if_neg hs, except_bind_error]
  · rw [if_neg (by omega), if_neg h1,
      show st.r.length + 1 - 2 = st.r.length - 1 by omega]
    have hidx : st.r.length - 1 < st.polynomials.length := by omega
    have hqmem : st.polynomials.getD (st.r.length - 1) [] ∈ st.polynomials := by
      rw [List.getD_eq_getElem?_getD, List.getElem?_eq_getElem hidx, Option.getD_some]
      exact List.getElem_mem hidx
    obtain ⟨hqne, hqlen⟩ := hq _ hqmem
    rw [getUnivariateLDE_short _ _ hqne hqlen, except_bind_ok]
    by_cases hs : uniEval2 p g_j 0 + uniEval2 p g_j 1 =
        uniEval2 p (st.polynomials.getD (st.r.length - 1) [])
          (st.r.getD (st.r.length - 1) 0)
    · rw [if_pos hs, if_pos hs, except_bind_ok]
    · rw [if_neg hs, if_neg hs, except_bind_error]

/-- C2 (witness): an agreeing round-2 message is accepted and the state advances — at
`p = 101` with stored `g_1 = [4, 5]`, challenge `r_1 = 1` and claim `g_1(1) = 5`, the
message `g_2 = [2, 3]` with `g_2(0) + g_2(1) = 5` is accepted. -/
theorem C2_witness :
    SumCheckIterative.verifyRoundJPolynomial 101 ⟨2, 9, [[4, 5]], [1]⟩ [2, 3] 6 =
      .ok (6, ⟨2, 9, [[4, 5], [2, 3]], [1, 6]⟩) := by
  have h := C2_round_sum_check.1 101 (Fact.mk (by norm_num)) ⟨2, 9, [[4, 5]], [1]⟩ [2, 3] 6
    (by norm_num) (by simp) (by simp) (by simp) (by decide)
  rw [if_pos (by decide)] at h
  exact h

/-- C3 (counterexample): on the single-character message `"h"` (code 104) with the empty
evaluation vector (dimension `⌈log₂ 1⌉ = 0`), the naive evaluator returns 104 while the
memoized one fails — `memoizedLagrangeBasis` dereferences `x[0]` of the empty vector. -/
theorem C3_counterexample :
    getMultilinearLagrange 101 [104] [] = .ok 104 ∧
      getMemoizedMultilinearLagrange 101 [104] [] = .error .typeError := ⟨rfl, rfl⟩

/-- C3 (amended): for every valid input pair with at least two message characters — all
codes ASCII, evaluation vector of length `d = ⌈log₂ n⌉` — the naive and the memoized
multilinear evaluators return the identical field element (and in particular both
succeed). -/
theorem C3_equivalence (p : ℕ) (message : List ℕ) (r : List (ZMod p))
    (hvalid : ∀ c ∈ message, c ≤ 127) (h2 : 2 ≤ message.length)
    (hr : r.length = clog2 message.length) :
    getMultilinearLagrange p message r = getMemoizedMultilinearLagrange p message r :=
  messageEvaluators_agree message r hvalid h2 hr

/-- C3 (witness): the two evaluators agree on the message `"hi"` at the point `[55]`. -/
theorem C3_witness :
    getMultilinearLagrange 101 [104, 105] [55] =
      getMemoizedMultilinearLagrange 101 [104, 105] [55] :=
  C3_equivalence 101 [104, 105] [55] (by decide) (by norm_num) (by decide)

/-- C4: node interpolation is exact.  For `i < values.length` (table within the field),
`getUnivariateLDE(values, i)` is `values[i]`; and for every `i < 2^d` with
`d = ⌈log₂ length⌉`, `getMultilinearLDE` at the MSB-first binary vertex of `i` is
`values[i]` when `i` is in range and zero otherwise. -/
theorem C4_node_interpolation :
    (∀ (p : ℕ) (values : List (ZMod p)) (i : ℕ),
      i < values.length → values.length ≤ p →
      getUnivariateLDE p values ((i : ℕ) : ZMod p) = .ok (values.getD i 0)) ∧
    (∀ (p : ℕ) (values : List (ZMod p)) (i : ℕ),
      values ≠ [] → i < 2 ^ clog2 values.length →
      getMultilinearLDE p values ((toBinary i (clog2 values.length)).map Nat.cast) =
        .ok (if i < values.length then values.getD i 0 else 0)) := by
  constructor
  · intro p values i hi hp
    unfold getUnivariateLDE
    rw [if_neg (by omega), ZMod.val_cast_of_lt (by omega), if_pos hi]
  · intro p values i hne hi
    rw [getMultilinearLDE_ok (fun h0 => hne (List.length_eq_zero.mp h0))
      (by rw [List.length_map, toBinary_length]), mleSum_vertex values _ i hi]

/-- C4 (witness): on the table `[3, 4, 5]`, the univariate extension at node 1 is 4, and
the multilinear extension at the out-of-range vertex `(1,1)` (index 3 ≥ 3) is 0. -/
theorem C4_witness :
    getUnivariateLDE 101 [3, 4, 5] 1 = .ok 4 ∧
      getMultilinearLDE 101 [3, 4, 5] [1, 1] = .ok 0 := by
  constructor
  · have h := C4_node_interpolation.1 101 [3, 4, 5] 1 (by norm_num) (by norm_num)
    rw [show (((1 : ℕ) : ZMod 101)) = 1 by norm_num] at h
    exact h
  · have h := C4_node_interpolation.2 101 [3, 4, 5] 3 (by simp) (by decide)
    rw [show ((toBinary 3 (clog2 ([3, 4, 5] : List (ZMod 101)).length)).map Nat.cast :
        List (ZMod 101)) = [1, 1] by decide] at h
    rw [if_neg (by norm_num)] at h
    exact h

/-- C5 (counterexample): the claim fails as stated.  With `v = 1` the one-entry table
`[5]` satisfies `1 ≤ length ≤ 2^v`, and construction succeeds, but `getProposedSum`
raises a dimension mismatch (in both Prover variants): the evaluator derives dimension
`⌈log₂ 1⌉ = 0` from the table length and rejects the 1-dimensional vertex vectors. -/
theorem C5_counterexample :
    SumCheckProver.mkProver 101 [5] 1 = .ok ⟨1, [5], []⟩ ∧
      SumCheckProver.getProposedSum 101 ⟨1, [5], []⟩ = .error .dimensionMismatch ∧
      SumCheckTs.getProposedSum 101 ⟨1, [5], []⟩ = .error .dimensionMismatch :=
  ⟨rfl, rfl, rfl⟩

/-- C5 (amended): Prover construction succeeds for every table with `length ≤ 2^v`, and
`getProposedSum` (both variants) returns the sum of the table entries — the boolean
vertices beyond the table contribute zero — provided the table length yields exactly `v`
dimensions, `⌈log₂ length⌉ = v`. -/
theorem C5_proposed_sum :
    (∀ (p : ℕ) (g : List (ZMod p)) (v : ℕ), g.length ≤ 2 ^ v →
      SumCheckProver.mkProver p g v = .ok ⟨v, g, []⟩) ∧
    (∀ (p : ℕ) (g : List (ZMod p)) (v : ℕ), 1 ≤ v → clog2 g.length = v →
      SumCheckTs.getProposedSum p ⟨v, g, []⟩ = .ok g.sum ∧
      SumCheckProver.getProposedSum p ⟨v, g, []⟩ = .ok g.sum) := by
  constructor
  · intro p g v h
    unfold SumCheckProver.mkProver
    rw [if_neg (by omega)]
  · intro p g v hv hg
    have hg0 : g.length ≠ 0 := fun h0 => by rw [h0, clog2_zero] at hg; omega
    have hle : g.length ≤ 2 ^ v := by rw [← hg]; exact le_pow_clog2 _
    have hps := getProposedSum_honest g v [] hg hg0 hv
    rw [boolSuffixSum_nil_eq_sum g v hle] at hps
    exact ⟨by rw [scTs_getProposedSum_eq _ hv]; exact hps, hps⟩

/-- C5 (witness): for `v = 1` and `g = [2, 3]` construction succeeds and the proposed
sum is `2 + 3 = 5`. -/
theorem C5_witness :
    SumCheckProver.mkProver 101 [2, 3] 1 = .ok ⟨1, [2, 3], []⟩ ∧
      SumCheckTs.getProposedSum 101 ⟨1, [2, 3], []⟩ = .ok 5 := by
  refine ⟨C5_proposed_sum.1 101 [2, 3] 1 (by norm_num), ?_⟩
  have h := (C5_proposed_sum.2 101 [2, 3] 1 (by norm_num) (by decide)).1
  exact h

/-- C6: in the final round (`v − j = 0` free variables) the `sum-check-prover.ts`
Prover returns the pair of single multilinear-extension values at the challenge prefix
with `0` and `1` appended and no free boolean suffix; the `sum-check.ts` Prover instead
fabricates the length-1 suffix `["0"]` for dimension 0 and fails with a dimension
mismatch, as the failing input `v = 1`, `g = [2, 3]` shows — the very input on which the
first part returns the degenerate pair `(g~(0), g~(1)) = (2, 3)`. -/
theorem C6_final_round :
    (∀ (p : ℕ) (g : List (ZMod p)) (v : ℕ) (r0 : List (ZMod p))
      (copt : Option (ZMod p)),
      clog2 g.length = v → g.length ≠ 0 → (copt = none → r0 = []) →
      (r0 ++ copt.toList).length + 1 = v →
      SumCheckProver.getRoundJPolynomial p ⟨v, g, r0⟩ copt =
        (.ok (mleSum p g v ((r0 ++ copt.toList) ++ [0]),
              mleSum p g v ((r0 ++ copt.toList) ++ [1])),
         ⟨v, g, r0 ++ copt.toList⟩)) ∧
    SumCheckTs.getRoundJPolynomial 101 ⟨1, [2, 3], []⟩ none =
      (.error .dimensionMismatch, ⟨1, [2, 3], []⟩) := by
  refine ⟨?_, rfl⟩
  intro p g v r0 copt hg hg0 hnone hlen
  rw [getRoundJPolynomial_honest g v r0 copt hg hg0 hnone (by omega)]
  rw [boolSuffixSum_full g v _
      (by simp only [List.length_append, List.length_cons, List.length_nil] at hlen ⊢; omega),
    boolSuffixSum_full g v _
      (by simp only [List.length_append, List.length_cons, List.length_nil] at hlen ⊢; omega)]

/-- C6 (witness): the final (only) round for `v = 1`, `g = [2, 3]` returns the table
values `(g~(0), g~(1)) = (2, 3)`. -/
theorem C6_witness :
    SumCheckProver.getRoundJPolynomial 101 ⟨1, [2, 3], []⟩ none =
      (.ok (2, 3), ⟨1, [2, 3], []⟩) := by
  have h := C6_final_round.1 101 [2, 3] 1 [] none (by decide) (by decide)
    (fun _ => rfl) (by decide)
  rw [h]
  decide

/-- C7: after a full honest run of all `v` rounds, one further `getRoundJPolynomial`
call (with the final challenge supplied, as the protocol convention requires) fails with
the round-overflow error — not with a polynomial and not with a different error. -/
theorem C7_round_overflow (p : ℕ) [Fact p.Prime] (g : List (ZMod p)) (v : ℕ)
    (challenges : List (ZMod p)) (c : ZMod p)
    (pst : SumCheckProver.Prover p) (vst : SumCheckIterative.Verifier p)
    (hg : clog2 g.length = v) (hv : 1 ≤ v) (hchals : challenges.length = v)
    (hrun : runProtocolStates p g v challenges = .ok (pst, vst)) :
    SumCheckProver.getRoundJPolynomial p pst (some c) =
      (.error .roundOverflow, ⟨v, g, challenges.dropLast ++ [c]⟩) := by
  rw [runProtocolStates_honest g v challenges hg hv hchals] at hrun
  injection hrun with hrun
  have hpst : pst = ⟨v, g, challenges.dropLast⟩ := (congrArg Prod.fst hrun).symm
  subst hpst
  unfold SumCheckProver.getRoundJPolynomial
  dsimp only [Option.toList_some]
  rw [if_pos (by
    simp only [List.length_append, List.length_dropLast, List.length_cons,
      List.length_nil, hchals]
    omega)]

/-- C7 (witness): after the one-round run on `g = [2, 3]`, a second prover call with a
challenge overflows. -/
theorem C7_witness :
    SumCheckProver.getRoundJPolynomial 101 ⟨1, [2, 3], []⟩ (some 5) =
      (.error .roundOverflow, ⟨1, [2, 3], [5]⟩) := by
  have hrun : runProtocolStates 101 ([2, 3] : List (ZMod 101)) 1 [0] =
      .ok (⟨1, [2, 3], []⟩, ⟨1, 5, [[2, 3]], [0]⟩) := by decide
  have hg : clog2 ([2, 3] : List (ZMod 101)).length = 1 := by decide
  haveI : Fact (Nat.Prime 101) := ⟨by norm_num⟩
  exact C7_round_overflow 101 [2, 3] 1 [0] 5 ⟨1, [2, 3], []⟩
    ⟨1, 5, [[2, 3]], [0]⟩ hg (by norm_num) rfl hrun

/-- The regular branch of the `sum-check.ts` round can only fail with an error of its
multilinear-extension calls. -/
theorem scTsRegular_error_cases {p : ℕ} (g : List (ZMod p))
    (pts0 pts1 : List (List (ZMod p))) (e : Err)
    (h : (do
        let sum0 ← SumCheckProver.sumMLE p g pts0
        let sum1 ← SumCheckProver.sumMLE p g pts1
        (.ok (sum0, sum1) : Except Err (ZMod p × ZMod p))) = .error e) :
    e = .emptyInput ∨ e = .dimensionMismatch := by
  cases hm0 : SumCheckProver.sumMLE p g pts0 with
  | error e0 =>
    rw [hm0, except_bind_error] at h
    injection h with h
    subst h
    exact sumMLE_error_cases hm0
  | ok y0 =>
    rw [hm0, except_bind_ok] at h
    cases hm1 : SumCheckProver.sumMLE p g pts1 with
    | error e1 =>
      rw [hm1, except_bind_error] at h
      injection h with h
      subst h
      exact sumMLE_error_cases hm1
    | ok y1 =>
      rw [hm1, except_bind_ok] at h
      exact absurd h (fun hc => by injection hc)

/-- C8: whenever the `sum-check.ts` Prover raises one of the structural errors (round
overflow, unexpected challenge, missing challenge) its state is exactly the state before
the call; the `sum-check-prover.ts` Prover violates this — it appends the challenge to
`r` before any check, as the failing input `v = 1`, fresh prover, challenge `5` shows
(it also reports round overflow where the unexpected-challenge error was intended). -/
theorem C8_state_on_error :
    (∀ (p : ℕ) (st : SumCheckProver.Prover p) (copt : Option (ZMod p)) (e : Err),
      (SumCheckTs.getRoundJPolynomial p st copt).1 = .error e →
      (e = .roundOverflow ∨ e = .unexpectedChallenge ∨ e = .missingChallenge) →
      (SumCheckTs.getRoundJPolynomial p st copt).2 = st) ∧
    SumCheckProver.getRoundJPolynomial 101 ⟨1, [1], []⟩ (some 5) =
      (.error .roundOverflow, ⟨1, [1], [5]⟩) := by
  refine ⟨?_, rfl⟩
  intro p st copt e herr hstruct
  unfold SumCheckTs.getRoundJPolynomial at herr ⊢
  by_cases h1 : st.v ≤ st.r.length
  · rw [if_pos h1]
  · rw [if_neg h1] at herr ⊢
    by_cases h2 : st.r.length = 0 ∧ copt.isSome
    · rw [if_pos h2]
    · rw [if_neg h2] at herr ⊢
      by_cases h3 : st.r.length ≠ 0 ∧ copt = none
      · rw [if_pos h3]
      · rw [if_neg h3] at herr ⊢
        exfalso
        dsimp only at herr
        have := scTsRegular_error_cases st.g _ _ e herr
        rcases hstruct with h | h | h <;> subst h <;>
          rcases this with h | h <;> exact Err.noConfusion h

/-- C8 (witness): a `sum-check.ts` missing-challenge error leaves the state untouched. -/
theorem C8_witness :
    (SumCheckTs.getRoundJPolynomial 101 ⟨2, [1, 2], [3]⟩ none).2 = ⟨2, [1, 2], [3]⟩ :=
  C8_state_on_error.1 101 ⟨2, [1, 2], [3]⟩ none .missingChallenge rfl
    (Or.inr (Or.inr rfl))

/-- C9: in the general path of `getUnivariateLDE` every division has a nonzero divisor —
the denominator `node[index] − node[j]` with `j ≠ index` is never the additive identity,
because distinct node indices below the field order map to distinct field elements — so
on every non-empty table (of length at most the field order) and every evaluation point
the function succeeds. -/
theorem C9_no_division_by_zero :
    (∀ (p i j n : ℕ), i < n → j < n → i ≠ j → n ≤ p →
      ((i : ZMod p) - (j : ZMod p)) ≠ 0) ∧
    (∀ (p : ℕ) (values : List (ZMod p)) (x : ZMod p),
      values ≠ [] → values.length ≤ p →
      ∃ y, getUnivariateLDE p values x = .ok y) :=
  ⟨fun _ _ _ _ hi hj hne hnp => natCast_sub_ne_zero hi hj hne hnp,
   fun _ values x hne hnp => getUnivariateLDE_exists_ok values x hne hnp⟩

/-- C9 (witness): the two-point table at the out-of-range point 5 goes down the general
path and succeeds, and the node denominator `0 − 1` is nonzero. -/
theorem C9_witness :
    (∃ y, getUnivariateLDE 101 [1, 2] 5 = .ok y) ∧
      (((0 : ℕ) : ZMod 101) - ((1 : ℕ) : ZMod 101)) ≠ 0 := by
  constructor
  · exact C9_no_division_by_zero.2 101 [1, 2] 5 (by simp) (by norm_num)
  · exact C9_no_division_by_zero.1 101 0 1 2 (by norm_num) (by norm_num) (by norm_num)
      (by norm_num)

/-- C10: on the table `[104, 105]` (ASCII `h`, `i`) the univariate extension returns 104
at 0 and 105 at 1 (exactly, via the fast path), and extrapolates the degree-≤1
polynomial through `(0, 104)` and `(1, 105)` to 106 at the point 2. -/
theorem C10_hi_table (p : ℕ) [Fact p.Prime] (_hp : 106 < p) :
    getUnivariateLDE p [104, 105] 0 = .ok 104 ∧
      getUnivariateLDE p [104, 105] 1 = .ok 105 ∧
      getUnivariateLDE p [104, 105] 2 = .ok 106 := by
  refine ⟨?_, ?_, ?_⟩
  · rw [getUnivariateLDE_pair]
    congr 1
    ring
  · rw [getUnivariateLDE_pair]
    congr 1
    ring
  · rw [getUnivariateLDE_pair]
    congr 1
    ring

/-- C10 (witness): the same evaluations at the concrete prime 127. -/
theorem C10_witness :
    getUnivariateLDE 127 [104, 105] 2 = .ok 106 := by
  haveI : Fact (Nat.Prime 127) := ⟨by norm_num⟩
  exact (C10_hi_table 127 (by norm_num)).2.2
